import Mathlib

/-!
# Verification of the discrete-event simulation kernel and its scenario actors

This file gives a shallow embedding, in Lean, of the event-queue / event-loop
kernel shared by the simulators in this repository (`ski_sim.py`,
`omission/omission.py`, `simple_collapse_sim/sim.py`, `retry_sim/*`,
`cache_sim/cache_sim.py`) together with the scenario actors the testable
properties talk about, and proves (or refutes) those properties.

Conventions of the embedding:
* Python floats are modelled as `ℚ`.  Every concrete constant appearing in the
  properties (`7.0`, `5.0`, `0.1`, `3.0`, …) and every arithmetic operation the
  relevant code paths perform on them (`+`, `-`, `min`, comparisons, and the
  single division `failures / calls`) is exact in both binary floating point
  and `ℚ` at the inputs the theorems use, so the model is faithful there.
* Python `int` is modelled as `ℤ` (or `ℕ` for values that are only ever
  incremented from 0).
* Mutation of an object's attributes is modelled by explicit state passing:
  a Python method `obj.m(args)` that mutates `obj` and returns `r` becomes a
  Lean function `m : State → Args → ReturnValue × State`.
* Code that can raise (`assert`, `KeyError`, `IndexError`, attribute access on
  `None`) is modelled in `Option`, with `none` standing for the raised
  exception.
* Sources of randomness (`random.normalvariate`, `random.expovariate`,
  `random.random`) are modelled as oracle parameters: the caller supplies the
  sampled values.
-/


namespace PyHeap

/-!
## The event queue: CPython's `heapq`

All three simulation loops in the repository keep their event queue as a plain
Python list manipulated exclusively through `heapq.heappop`, `list.extend`
and `heapq.heapify`.  `heapq` is CPython standard-library code, not repository
code, so the functions below are a faithful transcription of CPython's
`heapq._siftup`, `heapq._siftdown`, `heapq.heapify` and `heapq.heappop`
(the pure-Python reference implementation, `Lib/heapq.py`):

```
def _siftdown(heap, startpos, pos):
    newitem = heap[pos]
    while pos > startpos:
        parentpos = (pos - 1) >> 1
        parent = heap[parentpos]
        if newitem < parent:
            heap[pos] = parent
            pos = parentpos
            continue
        break
    heap[pos] = newitem

def _siftup(heap, pos):
    endpos = len(heap)
    startpos = pos
    newitem = heap[pos]
    childpos = 2*pos + 1
    while childpos < endpos:
        rightpos = childpos + 1
        if rightpos < endpos and not heap[childpos] < heap[rightpos]:
            childpos = rightpos
        heap[pos] = heap[childpos]
        pos = childpos
        childpos = 2*pos + 1
    heap[pos] = newitem
    _siftdown(heap, startpos, pos)

def heapify(x):
    n = len(x)
    for i in reversed(range(n//2)):
        _siftup(x, i)

def heappop(heap):
    lastelt = heap.pop()
    if heap:
        returnitem = heap[0]
        heap[0] = lastelt
        _siftup(heap, 0)
        return returnitem
    return lastelt
```

The element comparison `<` is a parameter `lt : α → α → Bool`.  The loops'
elements are tuples `(time, callback, payload)`, which Python compares
lexicographically; the instantiations used below are explained where the
concrete event types are defined.

The `while` loops are written with an explicit fuel argument (the sift
position strictly descends toward the root, resp. strictly descends toward
the leaves, so `pos` resp. `length` fuel suffices); this keeps every function
structurally recursive and hence directly evaluable by the kernel.  All
lemmas about them carry the (always satisfiable) fuel hypotheses.
-/

/-- The `while pos > startpos` loop of CPython's `heapq._siftdown`, plus the
final `heap[pos] = newitem` store.  `s` is `startpos`, `x` is `newitem`.
Out-of-range reads (impossible in the uses below) fall through to the final
store. -/
def siftdownFuel (lt : α → α → Bool) (s : Nat) : Nat → Nat → List α → α → List α
  | 0, pos, h, x => h.set pos x
  | fuel + 1, pos, h, x =>
    if s < pos then
      let pp := (pos - 1) / 2
      match h.get? pp with
      | none => h.set pos x
      | some parent =>
        if lt x parent then siftdownFuel lt s fuel pp (h.set pos parent) x
        else h.set pos x
    else h.set pos x

/-- The `while childpos < endpos` loop of CPython's `heapq._siftup`, plus the
trailing `heap[pos] = newitem; _siftdown(heap, startpos, pos)`.  `s` is
`startpos`, `x` is `newitem`.  The chosen child is `childpos` unless a right
child exists and `not heap[childpos] < heap[rightpos]`. -/
def siftupFuel (lt : α → α → Bool) (s : Nat) : Nat → Nat → List α → α → List α
  | 0, pos, h, x => h.set pos x
  | fuel + 1, pos, h, x =>
    if hc : 2 * pos + 1 < h.length then
      if hr : 2 * pos + 2 < h.length then
        if lt (h.get ⟨2 * pos + 1, hc⟩) (h.get ⟨2 * pos + 2, hr⟩) then
          siftupFuel lt s fuel (2 * pos + 1) (h.set pos (h.get ⟨2 * pos + 1, hc⟩)) x
        else
          siftupFuel lt s fuel (2 * pos + 2) (h.set pos (h.get ⟨2 * pos + 2, hr⟩)) x
      else
        siftupFuel lt s fuel (2 * pos + 1) (h.set pos (h.get ⟨2 * pos + 1, hc⟩)) x
    else
      siftdownFuel lt s pos pos (h.set pos x) x

/-- CPython's `heapq._siftup(heap, pos)` (which sets `startpos = pos` and
reads `newitem = heap[pos]` before the loop).  A position outside the list
(never reached by `heapify`/`heappop`) leaves the list unchanged. -/
def siftup (lt : α → α → Bool) (h : List α) (pos : Nat) : List α :=
  match h.get? pos with
  | some x => siftupFuel lt pos h.length pos h x
  | none => h

/-- `for i in reversed(range(k)): _siftup(x, i)`. -/
def heapifyGo (lt : α → α → Bool) : List α → Nat → List α
  | h, 0 => h
  | h, i + 1 => heapifyGo lt (siftup lt h i) i

/-- CPython's `heapq.heapify`: sift every internal node, deepest first. -/
def pyHeapify (lt : α → α → Bool) (h : List α) : List α :=
  heapifyGo lt h (h.length / 2)

/-- CPython's `heapq.heappop`: remove the last element; if the heap is still
non-empty, move that element to the root and sift it down, returning the old
root.  Popping an empty list raises `IndexError`, modelled as `none`. -/
def heappop (lt : α → α → Bool) (h : List α) : Option (α × List α) :=
  match h.getLast? with
  | none => none
  | some lastelt =>
    match h.dropLast with
    | [] => some (lastelt, [])
    | b :: rest => some (b, siftup lt ((b :: rest).set 0 lastelt) 0)

/-- Pop every element in turn (the drain used to state the queue-order
property), with explicit fuel. -/
def popAllFuel (lt : α → α → Bool) : Nat → List α → List α
  | 0, _ => []
  | fuel + 1, h =>
    match heappop lt h with
    | none => []
    | some (e, h') => e :: popAllFuel lt fuel h'

/-- Pop every element of `h` in heap order. -/
def popAll (lt : α → α → Bool) (h : List α) : List α :=
  popAllFuel lt h.length h

/-! ### The heap invariant and the assumptions on the comparison

`heapq` documents the invariant `heap[k] <= heap[2*k+1]` and
`heap[k] <= heap[2*k+2]`; with a boolean strict comparison this is
`lt heap[child] heap[parent] = false`.  `LtOk` collects the strict-weak-order
facts the comparisons used below satisfy. -/

/-- `j` is a child slot of `i` in the implicit binary tree of a `heapq` list. -/
def IsChild (i j : Nat) : Prop := j = 2 * i + 1 ∨ j = 2 * i + 2

/-- The edge from parent slot `i` to child slot `j` is heap-ordered in `h`
(vacuously so when either slot is out of range). -/
def PairOK (lt : α → α → Bool) (h : List α) (i j : Nat) : Prop :=
  ∀ x y, h.get? i = some x → h.get? j = some y → lt y x = false

/-- The `heapq` heap invariant: every parent/child edge is ordered. -/
def IsHeap (lt : α → α → Bool) (h : List α) : Prop :=
  ∀ i j, IsChild i j → PairOK lt h i j

/-- `lt` is a strict weak order (boolean form).  Both comparisons used in this
file (strict comparison of rational times, and lexicographic comparison of a
rational time and a natural tiebreaker) satisfy it. -/
structure LtOk (lt : α → α → Bool) : Prop where
  irrefl : ∀ a, lt a a = false
  lt_trans : ∀ a b c, lt a b = true → lt b c = true → lt a c = true
  nlt_trans : ∀ a b c, lt b a = false → lt c b = false → lt c a = false

/-- Slot `i` lies in the subtree rooted at slot `s`. -/
inductive Desc (s : Nat) : Nat → Prop
  | refl : Desc s s
  | step {i j : Nat} : Desc s i → IsChild i j → Desc s j

/-- Every parent/child edge whose parent slot is `≥ k` is ordered. -/
def HeapFrom (lt : α → α → Bool) (h : List α) (k : Nat) : Prop :=
  ∀ i j, k ≤ i → IsChild i j → PairOK lt h i j

end PyHeap

namespace SimLoop

open PyHeap

open PyHeap

/-!
## The simulation loop

All three simulators share the same loop, differing only in the handlers:

```
while len(q) > 0 and t < max_t:
    (t, call, payload) = heapq.heappop(q)
    new_events = call(payload, t)
    if new_events is not None:
        q.extend(new_events)
        heapq.heapify(q)
```

(`ski_sim.sim_loop`; `omission.sim_loop` and `simple_collapse_sim.sim_loop`
are identical up to the handlers' argument order `call(t, payload)`.)

Events are Python tuples `(time, callback, payload)`.  `heapq` compares them
with `<`, which compares the `time` components first; only when two times
are exactly equal does Python move on to the callbacks.  The loop-level
embedding compares by `time` only (`evLT`): this determines every
comparison between events with distinct times, which is what the loop
properties below are about.  (Exactly tied times with distinct callbacks
would raise `TypeError` in CPython; ties are examined separately, on the
event-queue embedding, where the claim about them is settled.)

The duck-typed callback dispatch `call(payload, t)` is a parameter
`D : σ → SEvent α → σ × Option (List (SEvent α))`: it sees the actor state
and the dispatched event (whose `data` field stands for the bound method and
payload of the tuple) and returns the new actor state together with `None`
or the list of follow-up events, exactly as the repository's handlers do.
-/

/-- A scheduled event: simulated time plus the data (`callback` and
`payload`) of the Python tuple. -/
structure SEvent (α : Type) where
  time : ℚ
  data : α
deriving DecidableEq, Repr

/-- Comparison of events by time (see the section comment). -/
def evLT {α : Type} (a b : SEvent α) : Bool := decide (a.time < b.time)

/-- Loop state between iterations: actor state `σ`, the event list `q`, and
the clock `t` (time of the most recently dispatched event; `0.0` before the
first iteration, as in all three `sim_loop`s). -/
structure SimConfig (σ α : Type) where
  state : σ
  q : List (SEvent α)
  t : ℚ
deriving DecidableEq, Repr

/-- One iteration of the loop: check the guard `len(q) > 0 and t < max_t`,
pop the minimum event, dispatch it, and extend-and-reheapify if the handler
returned events.  Returns the dispatched event and the next configuration,
or `none` when the guard fails and the loop exits. -/
def simStep {σ α : Type} (D : σ → SEvent α → σ × Option (List (SEvent α)))
    (maxT : ℚ) (c : SimConfig σ α) : Option (SEvent α × SimConfig σ α) :=
  if 0 < c.q.length ∧ c.t < maxT then
    match heappop evLT c.q with
    | none => none
    | some (e, q1) =>
      let r := D c.state e
      let q2 := match r.2 with
        | none => q1
        | some evs => pyHeapify evLT (q1 ++ evs)
      some (e, ⟨r.1, q2, e.time⟩)
  else none

/-- Configuration after `n` iterations; `none` once the loop has exited. -/
def stepN {σ α : Type} (D : σ → SEvent α → σ × Option (List (SEvent α)))
    (maxT : ℚ) : ℕ → SimConfig σ α → Option (SimConfig σ α)
  | 0, c => some c
  | n + 1, c =>
    match simStep D maxT c with
    | none => none
    | some (_, c') => stepN D maxT n c'

/-- The events dispatched during the first `n` iterations, in order. -/
def runTrace {σ α : Type} (D : σ → SEvent α → σ × Option (List (SEvent α)))
    (maxT : ℚ) : ℕ → SimConfig σ α → List (SEvent α)
  | 0, _ => []
  | n + 1, c =>
    match simStep D maxT c with
    | none => []
    | some (e, c') => e :: runTrace D maxT n c'

end SimLoop

namespace EventQueue

open PyHeap

/-!
## Event-queue ordering and tie behavior

The queue elements are Python tuples `(time, callback, payload)`.  Tuple
comparison checks `time` first; only exactly equal times reach the later
components.  Distinct bound methods do not support `<` (a `TypeError`), but
the omission simulator's completion events `(t + next_job.size,
self.job_done, n)` all carry the *same* bound method `self.job_done` (which
compares equal to itself), so two equal-time completion events compare by
the integer slot payload `n`.  The queue behavior on such events is
therefore total and is the instantiation used to settle the tie-order
claim: `OmEvent` is such an event and `ltOm` is exactly the order Python's
tuple comparison gives it. -/
structure OmEvent where
  time : ℚ
  slot : ℕ
deriving DecidableEq, Repr

/-- Python tuple comparison of two equal-callback events: by time, then by
the integer payload. -/
def ltOm (a b : OmEvent) : Bool :=
  decide (a.time < b.time) || (decide (a.time = b.time) && decide (a.slot < b.slot))

end EventQueue

namespace SimLoop

open PyHeap

open PyHeap

/-- A trivial actor system used as a concrete instance: every handler
returns an empty event list. -/
def noopD : Unit → SEvent Unit → Unit × Option (List (SEvent Unit)) :=
  fun _ _ => ((), some [])

/-- An actor system whose event `0` handler schedules a follow-up event in
the past (at time `3`, before the dispatched event's time `5`) — permitted
by the queue's insert contract, which places no constraint on the time. -/
def pastD : Unit → SEvent ℕ → Unit × Option (List (SEvent ℕ)) :=
  fun _ e => ((), some (if e.data = 0 then [⟨3, 1⟩] else []))

/-- Initial configuration for `pastD`: one event at time `5`, clock `0`. -/
def pastC0 : SimConfig Unit ℕ := ⟨(), [⟨5, 0⟩], 0⟩

/-- An actor system that counts dispatches in its state and schedules
nothing. -/
def countD : ℕ → SEvent Unit → ℕ × Option (List (SEvent Unit)) :=
  fun s _ => (s + 1, some [])

/-- Initial configuration for `countD`: one event beyond the horizon. -/
def lateC0 : SimConfig ℕ Unit := ⟨0, [⟨10, ()⟩], 0⟩

/-- Handler exercising the drain case: it re-schedules one event at exactly
the time of the event being dispatched (no strict increase).  Every time in
its runs below is the constant `0`, exactly representable in binary floating
point, so the modelled run coincides with the program's. -/
def constD : Unit → SEvent Unit → Unit × Option (List (SEvent Unit)) :=
  fun _ e => ((), some [⟨e.time, ()⟩])

/-- The initial configuration of the `constD` run: one pending event at
time `0`, clock `0`, horizon `1`. -/
def constC0 : SimConfig Unit Unit := ⟨(), [⟨0, ()⟩], 0⟩

/-- Number of `δ`-sized steps remaining before the horizon, measured from an
event's time (`0` at or beyond the horizon). -/
def lvl (maxT δ : ℚ) (e : SEvent α) : ℕ := ⌈(maxT - e.time) / δ⌉₊

/-- Weight of a pending event for the termination measure: `(K+1)` to the
power of its remaining level, `K` bounding the events one dispatch adds. -/
def weight (K : ℕ) (maxT δ : ℚ) (e : SEvent α) : ℕ := (K + 1) ^ lvl maxT δ e

/-- Termination measure of the pending-event multiset. -/
def qMeasure (K : ℕ) (maxT δ : ℚ) (q : Multiset (SEvent α)) : ℕ :=
  (q.map (weight K maxT δ)).sum

end SimLoop

namespace RetrySim

/-!
## `retry_sim/retry_strategy.py`

Strategy state is mutated in place in Python; here each method returns the
new state alongside its result.  The floats involved (`bucket`,
`bucket_fill_rate`, `calls`, `failures`, `max_rate`) are modelled as `ℚ`;
at the values the properties use, every operation performed (`+ 1.0`,
`- 1.0`, `min`, `>`, and one division) is exact in binary floating point,
so the `ℚ` model agrees with the Python floats there. -/

/-- `AdaptiveRetryStrategy.__init__(self, bucket_fill_rate, bucket_size)`:
the bucket starts full (`self.bucket = bucket_size`). -/
structure AdaptiveRetryStrategy where
  bucket_size : ℚ
  bucket_fill_rate : ℚ
  bucket : ℚ
deriving DecidableEq, Repr

/-- `AdaptiveRetryStrategy` as constructed (`bucket = bucket_size`). -/
def AdaptiveRetryStrategy.make (bucket_fill_rate bucket_size : ℚ) :
    AdaptiveRetryStrategy :=
  ⟨bucket_size, bucket_fill_rate, bucket_size⟩

/-- `start`: refill the bucket by the fill rate, capped at the size. -/
def AdaptiveRetryStrategy.start (s : AdaptiveRetryStrategy) :
    AdaptiveRetryStrategy :=
  ⟨s.bucket_size, s.bucket_fill_rate, min (s.bucket + s.bucket_fill_rate) s.bucket_size⟩

/-- `should_retry`: permit a retry (spending one token) only while
`self.bucket > 1.0`. -/
def AdaptiveRetryStrategy.should_retry (s : AdaptiveRetryStrategy) :
    Bool × AdaptiveRetryStrategy :=
  if s.bucket > 1 then (true, ⟨s.bucket_size, s.bucket_fill_rate, s.bucket - 1⟩)
  else (false, s)

/-- The results of `n` consecutive `should_retry()` calls with no
intervening `start()` refill. -/
def retryCalls : ℕ → AdaptiveRetryStrategy → List Bool
  | 0, _ => []
  | n + 1, s =>
    let r := s.should_retry
    r.1 :: retryCalls n r.2

/-- `CircuitBreakerRetryStrategy.__init__(self, n_retries_strategy,
max_rate)` keeps run-wide counters `calls` and `failures` (floats starting
at `0.0`); the inner-strategy prototype is kept abstract. -/
structure CircuitBreakerRetryStrategy where
  max_rate : ℚ
  calls : ℚ
  failures : ℚ
deriving DecidableEq, Repr

/-- `CircuitBreakerRetryCall(cbrs, nrs)`: the per-call object sharing the
breaker `cbrs` and holding an inner per-call strategy `nrs` of an abstract
state type `σ` (its `should_retry` is a parameter). -/
structure CircuitBreakerRetryCall (σ : Type) where
  cbrs : CircuitBreakerRetryStrategy
  nrs : σ

/-- `CircuitBreakerRetryCall.start`: count the call on the shared breaker. -/
def CircuitBreakerRetryCall.start {σ : Type} (c : CircuitBreakerRetryCall σ) :
    CircuitBreakerRetryCall σ :=
  ⟨⟨c.cbrs.max_rate, c.cbrs.calls + 1, c.cbrs.failures⟩, c.nrs⟩

/-- `CircuitBreakerRetryCall.should_retry`: count the failure, open the
breaker (return `False`) when the observed failure rate exceeds `max_rate`,
otherwise defer to the inner strategy. -/
def CircuitBreakerRetryCall.should_retry {σ : Type} (inner : σ → Bool × σ)
    (c : CircuitBreakerRetryCall σ) : Bool × CircuitBreakerRetryCall σ :=
  let cbrs1 : CircuitBreakerRetryStrategy :=
    ⟨c.cbrs.max_rate, c.cbrs.calls, c.cbrs.failures + 1⟩
  if cbrs1.failures / cbrs1.calls > cbrs1.max_rate then
    (false, ⟨cbrs1, c.nrs⟩)
  else
    let r := inner c.nrs
    (r.1, ⟨cbrs1, r.2⟩)

end RetrySim

namespace SkiSim

/-!
## `ski_sim.py`: `Skiier` and `Lift`

`Skiier.board_lift` asserts the skier is `WAITING` (assertion failure
modelled as `none`), marks it `RIDING_LIFT` and schedules its `leave_lift`.
`Lift.dequeue_skiiers` schedules the next chair at `t + chair_period` and
boards up to `chair_width` skiers popped from the end of the Python queue
list (`list.pop()` removes the *last* element).  `Lift.ride_time()` draws
`random.normalvariate(ride_time_mean, ride_time_stdev)`; the drawn samples
are supplied by the oracle `rng` (one fresh index per boarding). -/

inductive SkiierState
  | WAITING
  | RIDING_LIFT
  | SKIING
deriving DecidableEq, Repr

structure Skiier where
  speed : ℚ
  slope_len_m : ℚ
  state : SkiierState
deriving DecidableEq, Repr

/-- The bound methods `ski_sim` events carry; skiers are identified by
their index in the skier list (Python aliases the objects). -/
inductive SkiHandler
  | dequeue_skiiers
  | leave_lift (i : ℕ)
  | join_queue (i : ℕ)
  | calc_stats
deriving DecidableEq, Repr

structure SkiEvent where
  time : ℚ
  handler : SkiHandler
deriving DecidableEq, Repr

/-- `Lift.__init__` state plus the skiers it aliases; `queue` holds skier
indices, in Python-list order (append at the end, `pop()` from the end). -/
structure LiftSim where
  ride_time_mean : ℚ
  ride_time_stdev : ℚ
  chair_width : ℕ
  chair_period : ℚ
  queue : List ℕ
  skiiers : List Skiier
deriving DecidableEq, Repr

/-- `Skiier.board_lift(self, t)` for skier `i` with ride-time sample `rt`:
assert `WAITING` (else `none`), move to `RIDING_LIFT`, and return the
`leave_lift` event at `t + ride_time()`. -/
def boardLift (sim : LiftSim) (i : ℕ) (t rt : ℚ) :
    Option (LiftSim × List SkiEvent) :=
  match sim.skiiers.get? i with
  | none => none
  | some sk =>
    if sk.state = SkiierState.WAITING then
      some ({sim with
          skiiers := sim.skiiers.set i ⟨sk.speed, sk.slope_len_m, SkiierState.RIDING_LIFT⟩},
        [⟨t + rt, SkiHandler.leave_lift i⟩])
    else none

/-- The `for i in range(0, self.chair_width)` loop of `dequeue_skiiers`:
while the queue is non-empty, pop the last skier and board it, extending
the accumulated event list; `idx` indexes the ride-time oracle. -/
def dequeueGo (t : ℚ) (rng : ℕ → ℚ) :
    ℕ → ℕ → LiftSim → List SkiEvent → Option (LiftSim × List SkiEvent)
  | 0, _, sim, events => some (sim, events)
  | rem + 1, idx, sim, events =>
    if 0 < sim.queue.length then
      match sim.queue.getLast? with
      | none => none
      | some i =>
        match boardLift {sim with queue := sim.queue.dropLast} i t (rng idx) with
        | none => none
        | some r => dequeueGo t rng rem (idx + 1) r.1 (events ++ r.2)
    else dequeueGo t rng rem (idx + 1) sim events

/-- `Lift.dequeue_skiiers(self, _payload, t)`: start from the re-scheduled
chair event `(t + self.chair_period, self.dequeue_skiiers, None)` and board
up to `chair_width` skiers. -/
def dequeue_skiiers (sim : LiftSim) (t : ℚ) (rng : ℕ → ℚ) :
    Option (LiftSim × List SkiEvent) :=
  dequeueGo t rng sim.chair_width 0 sim
    [⟨t + sim.chair_period, SkiHandler.dequeue_skiiers⟩]

/-- A `Lift` with `chair_width = 4`, `chair_period = 7.0` (ride-time
parameters as in `run_sims`) whose queue holds ten `WAITING` skiers. -/
def lift10 : LiftSim :=
  ⟨300, 30, 4, 7, [0, 1, 2, 3, 4, 5, 6, 7, 8, 9],
   List.replicate 10 ⟨5, 3000, SkiierState.WAITING⟩⟩

end SkiSim

namespace CollapseSim

/-!
## `simple_collapse_sim/sim.py`: `Client`, `Stats`

Module constants: `network_delay = 0.1`, `max_request_t = 3.0`.  `Client`
holds `retries_left = 3` and `current_try = 0`; `Stats` wraps a `StatData`
with counters `starts`, `successes`, `retries`, `timeouts`.  Events carry a
sequence-number payload; `netdelay(t) = t + random.expovariate(...)` is
modelled by an oracle sample `nd`.  A handler that falls off the end of its
`if` returns Python `None`. -/

def network_delay : ℚ := 1/10

def max_request_t : ℚ := 3

/-- The bound methods the collapse simulator's events carry, with their
sequence-number payloads (`(self.current_try,)` resp.
`(self, self.current_try)`). -/
inductive CHandler
  | timeout (seq : ℤ)
  | server_start (seq : ℤ)
  | server_end (seq : ℤ)
  | client_done (seq : ℤ)
  | gen_load
  | print_stats
deriving DecidableEq, Repr

structure CEvent where
  time : ℚ
  handler : CHandler
deriving DecidableEq, Repr

/-- The mutable fields of one `Client`. -/
structure ClientState where
  retries_left : ℤ
  current_try : ℤ
deriving DecidableEq, Repr

/-- `StatData`'s counters (its other fields — `start_t`, a server alias,
and the run name — are reporting metadata never touched by the handlers
modelled here). -/
structure StatData where
  starts : ℕ
  successes : ℕ
  retries : ℕ
  timeouts : ℕ
deriving DecidableEq, Repr

/-- `Client.send_req(self, t, extra_delay)`: the timeout event and the
server-arrival event; `nd` is the `expovariate` sample inside
`netdelay(t)`. -/
def send_req (c : ClientState) (t extra_delay nd : ℚ) : List CEvent :=
  [⟨t + max_request_t + extra_delay, CHandler.timeout c.current_try⟩,
   ⟨t + nd + extra_delay, CHandler.server_start c.current_try⟩]

/-- `Client.retry_wait(self)`: the base client does not wait. -/
def retry_wait : ℚ := 0

/-- `Client.timeout(self, t, data)`: ignored (no stat increment, no state
change, `None` returned) unless `data[0] == self.current_try`; otherwise
count the timeout, consume a retry, bump the sequence number, and resend
while retries remain. -/
def Client.timeout (c : ClientState) (st : StatData) (t : ℚ) (seq : ℤ)
    (nd : ℚ) : ClientState × StatData × Option (List CEvent) :=
  if seq = c.current_try then
    let st1 : StatData := ⟨st.starts, st.successes, st.retries, st.timeouts + 1⟩
    let c1 : ClientState := ⟨c.retries_left - 1, c.current_try + 1⟩
    if c1.retries_left > 0 then
      (c1, ⟨st1.starts, st1.successes, st1.retries + 1, st1.timeouts⟩,
       some (send_req c1 t retry_wait nd))
    else
      (c1, st1, none)
  else
    (c, st, none)

/-- `Client.done(self, t, data)`: ignored unless `data[1] ==
self.current_try`; otherwise count the success and bump the sequence
number. -/
def Client.done (c : ClientState) (st : StatData) (t : ℚ) (seq : ℤ) :
    ClientState × StatData × Option (List CEvent) :=
  if seq = c.current_try then
    (⟨c.retries_left, c.current_try + 1⟩,
     ⟨st.starts, st.successes + 1, st.retries, st.timeouts⟩, none)
  else
    (c, st, none)

end CollapseSim

namespace CacheSim

/-!
## `cache_sim/cache_sim.py`: `LRU`

The cache is an `OrderedDict`, modelled as an association list in
insertion order: the head is the least recently used entry
(`popitem(last=False)` removes it), appending at the tail marks an entry
most recently used.  Keys are `ℕ` (the simulator's Zipf-drawn keys),
values `Bool` (only `True` is ever stored).  `put(k, None)` — which is how
`is_cached` probes — raises `KeyError` when it reaches
`self.map.popitem(last=False)` on an empty dict; that raise is `none`. -/

/-- `self.map.pop(k)`: remove the entry for `k`, returning its value and
the remaining entries in order; `none` when `k` is absent. -/
def popKey : List (ℕ × Bool) → ℕ → Option (Bool × List (ℕ × Bool))
  | [], _ => none
  | (k', v') :: rest, k =>
    if k' = k then some (v', rest)
    else
      match popKey rest k with
      | none => none
      | some r => some (r.1, (k', v') :: r.2)

structure LRU where
  capacity : ℕ
  map : List (ℕ × Bool)
deriving DecidableEq, Repr

def LRU.keys (l : LRU) : List ℕ := l.map.map Prod.fst

/-- `LRU.put(self, k, v)`:

```
if k in self.map:
    v = self.map.pop(k)
if len(self.map) == self.capacity:
    self.map.popitem(last=False)
if v is not None:
    self.map[k] = v
return v
```

Returns the resulting `v` and the new cache; `none` models the `KeyError`
from `popitem` on an empty dict. -/
def LRU.put (l : LRU) (k : ℕ) (v : Option Bool) : Option (Option Bool × LRU) :=
  let pk := popKey l.map k
  let v1 := match pk with
    | some r => some r.1
    | none => v
  let m1 := match pk with
    | some r => r.2
    | none => l.map
  match (if m1.length = l.capacity then
            match m1 with
            | [] => none
            | _ :: m2 => some m2
          else some m1) with
  | none => none
  | some m3 =>
    let m4 := match v1 with
      | some b => m3 ++ [(k, b)]
      | none => m3
    some (v1, ⟨l.capacity, m4⟩)

/-- `LRU.is_cached(self, k)`: `self.put(k, None) is not None`. -/
def LRU.is_cached (l : LRU) (k : ℕ) : Option (Bool × LRU) :=
  (l.put k none).map (fun r => (r.1.isSome, r.2))

end CacheSim

namespace OmissionSim

open EventQueue

/-!
## `omission/omission.py`: `FCFSQueue` and `Server`

Jobs carry a creation time and a size (both floats, here `ℚ`).  The
`FCFSQueue` is a deque appended at the back and popped (`popleft`) at the
front, modelled as a list with head = front.  The `Server` keeps `busy`
(a Python `int`, here `ℤ`), the queue, and a fixed-size slot array `jobs`
of length `mpl` holding `None` or the in-flight job.  Follow-up events
`(t + next_job.size, self.job_done, n)` are `OmEvent`s (time and slot).

`job_done(t, n)` asserts `busy > 0`, reads `jobs[n]` (an out-of-range `n`
is an `IndexError` and a `None` entry makes `completed.created_t` raise;
both are `none`), writes a CSV line to the result file (no modelled state),
then either starts the next queued job in slot `n` or frees the slot, and
finally calls `self.client.done(t, completed)`, which may itself mutate the
server (closed-loop and timeout clients call `server.offer` from `done`);
the client's `done` is therefore a parameter `cdone` acting on the server
state and returning the optional extra event. -/

structure OmJob where
  created_t : ℚ
  size : ℚ
deriving DecidableEq, Repr

structure ServerState where
  busy : ℤ
  queue : List OmJob
  mpl : ℕ
  jobs : List (Option OmJob)
deriving DecidableEq, Repr

/-- `Server.__init__(self, mpl, ...)`: idle, empty queue, `mpl` free slots. -/
def ServerState.make (mpl : ℕ) : ServerState :=
  ⟨0, [], mpl, List.replicate mpl none⟩

/-- The `for i in range(self.mpl): if self.jobs[i] is None:` search —
index of the first free slot. -/
def findNone : List (Option OmJob) → Option ℕ
  | [] => none
  | none :: _ => some 0
  | some _ :: rest => (findNone rest).map (· + 1)

/-- `Server.offer(self, job, t)`: start the job in the first free slot when
`busy < mpl` (incrementing `busy` first, as the code does), returning its
completion event; enqueue it otherwise.  The `assert(False)` after a failed
slot search is `none`. -/
def Server.offer (s : ServerState) (job : OmJob) (t : ℚ) :
    Option (ServerState × Option OmEvent) :=
  if s.busy < (s.mpl : ℤ) then
    match findNone s.jobs with
    | some i =>
      some ({s with busy := s.busy + 1, jobs := s.jobs.set i (some job)},
        some ⟨t + job.size, i⟩)
    | none => none
  else
    some ({s with queue := s.queue ++ [job]}, none)

/-- The queue-advancing middle of `Server.job_done`: start the next queued
job in slot `n` (scheduling its completion), or free the slot and decrement
`busy` when the queue is empty.  Returns the new server state and the
events list built so far. -/
def Server.job_done_advance (s : ServerState) (t : ℚ) (n : ℕ) :
    ServerState × List OmEvent :=
  match s.queue with
  | next_job :: rest =>
    ({s with queue := rest, jobs := s.jobs.set n (some next_job)},
     [⟨t + next_job.size, n⟩])
  | [] =>
    ({s with busy := s.busy - 1, jobs := s.jobs.set n none}, [])

/-- `Server.job_done(self, t, n)` (see the section comment; `cdone` is
`self.client.done`, acting on the server because real clients re-enter
`server.offer` from `done`). -/
def Server.job_done
    (cdone : ℚ → OmJob → ServerState → Option (ServerState × Option OmEvent))
    (s : ServerState) (t : ℚ) (n : ℕ) :
    Option (ServerState × List OmEvent) :=
  if s.busy > 0 then
    match s.jobs.get? n with
    | some (some completed) =>
      match cdone t completed (Server.job_done_advance s t n).1 with
      | none => none
      | some r2 =>
        match r2.2 with
        | none => some (r2.1, (Server.job_done_advance s t n).2)
        | some ev => some (r2.1, (Server.job_done_advance s t n).2 ++ [ev])
    | some none => none
    | none => none
  else none

/-- The invariant tying `busy` to the slot array: `busy` counts the
occupied slots and the slot array has length `mpl`. -/
def Inv (s : ServerState) : Prop :=
  s.busy = (s.jobs.countP Option.isSome : ℤ) ∧ s.jobs.length = s.mpl

end OmissionSim


namespace PyHeap

theorem LtOk.asym {lt : α → α → Bool} (hlt : LtOk lt) {a b : α}
    (hab : lt a b = true) : lt b a = false := by
  cases hba : lt b a with
  | false => rfl
  | true => have := hlt.lt_trans a b a hab hba; rw [hlt.irrefl a] at this; exact this.symm

theorem IsChild.lt {i j : Nat} (h : IsChild i j) : i < j := by
  rcases h with rfl | rfl <;> omega

theorem IsChild.parent_eq {i j : Nat} (h : IsChild i j) : i = (j - 1) / 2 := by
  rcases h with rfl | rfl <;> omega

theorem isChild_parent {j : Nat} (h : 0 < j) : IsChild ((j - 1) / 2) j := by
  unfold IsChild; omega

theorem Desc.le {s i : Nat} (h : Desc s i) : s ≤ i := by
  induction h with
  | refl => exact Nat.le_refl s
  | step _ hc ih => exact Nat.le_of_lt (Nat.lt_of_le_of_lt ih hc.lt)

theorem not_desc_of_lt {s i : Nat} (h : i < s) : ¬ Desc s i :=
  fun hd => Nat.not_le_of_lt h hd.le

theorem Desc.parent {s i j : Nat} (hd : Desc s j) (hj : j ≠ s) (hc : IsChild i j) :
    Desc s i := by
  cases hd with
  | refl => exact absurd rfl hj
  | step hi hc' => rwa [hc.parent_eq, ← hc'.parent_eq]

theorem desc_zero (i : Nat) : Desc 0 i := by
  induction i using Nat.strong_induction_on with
  | _ i ih =>
    cases i with
    | zero => exact Desc.refl
    | succ n =>
      exact Desc.step (ih ((n + 1 - 1) / 2) (by omega)) (isChild_parent (Nat.succ_pos n))

/-! ### Length and multiset preservation -/

theorem length_siftdownFuel (lt : α → α → Bool) (s : Nat) :
    ∀ (fuel pos : Nat) (h : List α) (x : α),
      (siftdownFuel lt s fuel pos h x).length = h.length := by
  intro fuel
  induction fuel with
  | zero => intro pos h x; simp [siftdownFuel]
  | succ fuel ih =>
    intro pos h x
    simp only [siftdownFuel]
    split
    · cases hpp : h.get? ((pos - 1) / 2) with
      | none => simp
      | some parent =>
        simp only [hpp]
        split
        · rw [ih]; simp
        · simp
    · simp

theorem length_siftupFuel (lt : α → α → Bool) (s : Nat) :
    ∀ (fuel pos : Nat) (h : List α) (x : α),
      (siftupFuel lt s fuel pos h x).length = h.length := by
  intro fuel
  induction fuel with
  | zero => intro pos h x; simp [siftupFuel]
  | succ fuel ih =>
    intro pos h x
    simp only [siftupFuel]
    split
    · split
      · split <;> rw [ih] <;> simp
      · rw [ih]; simp
    · rw [length_siftdownFuel]; simp

theorem length_siftup (lt : α → α → Bool) (h : List α) (pos : Nat) :
    (siftup lt h pos).length = h.length := by
  unfold siftup
  cases hx : h.get? pos with
  | none => rfl
  | some x => exact length_siftupFuel lt pos h.length pos h x

theorem length_heapifyGo (lt : α → α → Bool) :
    ∀ (k : Nat) (h : List α), (heapifyGo lt h k).length = h.length := by
  intro k
  induction k with
  | zero => intro h; rfl
  | succ k ih => intro h; rw [heapifyGo, ih, length_siftup]

theorem length_pyHeapify (lt : α → α → Bool) (h : List α) :
    (pyHeapify lt h).length = h.length :=
  length_heapifyGo lt (h.length / 2) h

/-- Rearranged cancellation in a multiset: from `A + p = B + x` and
`B + v = C + p` conclude `A + v = C + x`. -/
theorem addSwapCancel {A B C p x v : Multiset α}
    (h1 : A + p = B + x) (h2 : B + v = C + p) : A + v = C + x := by
  have h : A + v + p = C + x + p := by
    calc A + v + p = A + p + v := by abel
    _ = B + x + v := by rw [h1]
    _ = B + v + x := by abel
    _ = C + p + x := by rw [h2]
    _ = C + x + p := by abel
  exact add_right_cancel h

/-- Overwriting slot `i` trades the old value for the new one, as multisets. -/
theorem multiset_set (h : List α) (i : Nat) (a b : α) (hb : h.get? i = some b) :
    (↑(h.set i a) : Multiset α) + {b} = ↑h + {a} := by
  induction h generalizing i with
  | nil => simp at hb
  | cons c t ih =>
    cases i with
    | zero =>
      simp only [List.get?] at hb
      cases hb
      simp only [List.set, ← Multiset.cons_coe, ← Multiset.singleton_add]
      abel
    | succ n =>
      simp only [List.get?] at hb
      simp only [List.set, ← Multiset.cons_coe, ← Multiset.singleton_add]
      have hrec := ih n hb
      rw [add_assoc, add_assoc, hrec]

theorem siftdownFuel_multiset (lt : α → α → Bool) (s : Nat) (x : α) :
    ∀ (fuel pos : Nat) (h : List α), pos ≤ fuel → ∀ v, h.get? pos = some v →
      (↑(siftdownFuel lt s fuel pos h x) : Multiset α) + {v} = ↑h + {x} := by
  intro fuel
  induction fuel with
  | zero =>
    intro pos h hf v hv
    have : pos = 0 := Nat.le_zero.mp hf
    subst this
    exact multiset_set h 0 x v hv
  | succ fuel ih =>
    intro pos h hf v hv
    simp only [siftdownFuel]
    split
    · cases hpp : h.get? ((pos - 1) / 2) with
      | none => exact multiset_set h pos x v hv
      | some parent =>
        simp only [hpp]
        split
        · rename_i hs _
          have hne : (pos - 1) / 2 ≠ pos := by omega
          have hv' : (h.set pos parent).get? ((pos - 1) / 2) = some parent := by
            rw [List.get?_set_ne _ _ (Ne.symm hne), hpp]
          have h1 := ih ((pos - 1) / 2) (h.set pos parent) (by omega) parent hv'
          have h2 := multiset_set h pos parent v hv
          exact addSwapCancel h1 h2
        · exact multiset_set h pos x v hv
    · exact multiset_set h pos x v hv

theorem siftupFuel_multiset (lt : α → α → Bool) (s : Nat) (x : α) :
    ∀ (fuel pos : Nat) (h : List α), pos < h.length → h.length - pos ≤ fuel →
      ∀ v, h.get? pos = some v →
      (↑(siftupFuel lt s fuel pos h x) : Multiset α) + {v} = ↑h + {x} := by
  intro fuel
  induction fuel with
  | zero => intro pos h hp hf v hv; omega
  | succ fuel ih =>
    intro pos h hp hf v hv
    have step : ∀ (cp : Nat) (hcp : cp < h.length), pos < cp →
        (↑(siftupFuel lt s fuel cp (h.set pos (h.get ⟨cp, hcp⟩)) x) : Multiset α) + {v}
          = ↑h + {x} := by
      intro cp hcp hpos
      have hne : pos ≠ cp := Nat.ne_of_lt hpos
      have hv' : (h.set pos (h.get ⟨cp, hcp⟩)).get? cp = some (h.get ⟨cp, hcp⟩) := by
        rw [List.get?_set_ne _ _ hne, List.get?_eq_get hcp]
      have h1 := ih cp (h.set pos (h.get ⟨cp, hcp⟩))
        (by simpa using hcp) (by simp; omega) _ hv'
      have h2 := multiset_set h pos (h.get ⟨cp, hcp⟩) v hv
      exact addSwapCancel h1 h2
    simp only [siftupFuel]
    split
    · split
      · split
        · exact step (2 * pos + 1) (by assumption) (by omega)
        · exact step (2 * pos + 2) (by assumption) (by omega)
      · exact step (2 * pos + 1) (by assumption) (by omega)
    · have hx : (h.set pos x).get? pos = some x := List.get?_set_eq_of_lt x hp
      have h1 := siftdownFuel_multiset lt s x pos pos (h.set pos x)
        (Nat.le_refl pos) x hx
      have h2 := multiset_set h pos x v hv
      exact addSwapCancel h1 h2

theorem siftup_multiset (lt : α → α → Bool) (h : List α) (pos : Nat) :
    (↑(siftup lt h pos) : Multiset α) = ↑h := by
  unfold siftup
  cases hx : h.get? pos with
  | none => rfl
  | some x =>
    have hp : pos < h.length := (List.get?_eq_some.mp hx).1
    have h1 := siftupFuel_multiset lt pos x h.length pos h hp (by omega) x hx
    exact add_right_cancel h1

theorem pyHeapify_multiset (lt : α → α → Bool) (h : List α) :
    (↑(pyHeapify lt h) : Multiset α) = ↑h := by
  unfold pyHeapify
  generalize h.length / 2 = k
  induction k generalizing h with
  | zero => rfl
  | succ k ih => rw [heapifyGo, ih, siftup_multiset]

/-! ### The sift procedures restore the heap invariant

The proofs follow the classic hole-based sift invariants.  During the
bubble-up phase (`siftdownFuel`) the hole is at `pos` inside the subtree
rooted at `s` and the state satisfies: every edge of the subtree not touching
the hole is ordered (`J1`), the new item fits above the hole's children
(`J2`), and the hole's children fit below the hole's parent (`J3`).  During
the descend phase (`siftupFuel`) the state satisfies the analogous `D1` and
`D2` (the new item not yet being placed, there is no `J2` analogue). -/

/-- Placing `x` in the hole finishes the sift: the whole subtree under `s`
becomes heap-ordered, provided the edges away from the hole are ordered
(`J1`), `x` fits above the hole's children (`J2`), and `x` fits below the
hole's parent when the hole is not the subtree root (`Jtop`). -/
theorem siftdownSettle {lt : α → α → Bool} (s : Nat) (x : α)
    (pos : Nat) (h : List α) (hd : Desc s pos) (hp : pos < h.length)
    (J1 : ∀ i j, Desc s i → i ≠ pos → j ≠ pos → IsChild i j → PairOK lt h i j)
    (J2 : ∀ j y, IsChild pos j → h.get? j = some y → lt y x = false)
    (Jtop : ∀ i y, IsChild i pos → Desc s i → h.get? i = some y →
      lt x y = false) :
    (∀ i j, Desc s i → IsChild i j → PairOK lt (h.set pos x) i j)
    ∧ ∀ k, ¬ Desc s k → (h.set pos x).get? k = h.get? k := by
  constructor
  · intro i j hdi hc a b ga gb
    by_cases hj : j = pos
    · have hij : i ≠ pos := by have := hc.lt; omega
      rw [List.get?_set_ne _ _ (fun he => hij he.symm)] at ga
      rw [hj, List.get?_set_eq_of_lt x hp] at gb
      cases gb
      exact Jtop i a (hj ▸ hc) hdi ga
    · by_cases hi : i = pos
      · rw [hi, List.get?_set_eq_of_lt x hp] at ga
        cases ga
        rw [List.get?_set_ne _ _ (fun he => hj he.symm)] at gb
        exact J2 j b (hi ▸ hc) gb
      · rw [List.get?_set_ne _ _ (fun he => hi he.symm)] at ga
        rw [List.get?_set_ne _ _ (fun he => hj he.symm)] at gb
        exact J1 i j hdi hi hj hc a b ga gb
  · intro k hk
    have hne : pos ≠ k := fun he => hk (he ▸ hd)
    exact List.get?_set_ne _ _ hne

/-- Bubble-up phase: under the hole invariants, `siftdownFuel` heap-orders the
subtree rooted at `s` and leaves every slot outside that subtree unchanged. -/
theorem siftdownFuel_succ_step {lt : α → α → Bool} {s fuel pos : Nat}
    {h : List α} {x parent : α} (hs : s < pos)
    (hpp : h.get? ((pos - 1) / 2) = some parent) (hxp : lt x parent = true) :
    siftdownFuel lt s (fuel + 1) pos h x
      = siftdownFuel lt s fuel ((pos - 1) / 2) (h.set pos parent) x := by
  simp only [siftdownFuel, if_pos hs, hpp, hxp, if_true]

theorem siftdownFuel_succ_settle {lt : α → α → Bool} {s fuel pos : Nat}
    {h : List α} {x parent : α} (hs : s < pos)
    (hpp : h.get? ((pos - 1) / 2) = some parent) (hxp : lt x parent = false) :
    siftdownFuel lt s (fuel + 1) pos h x = h.set pos x := by
  simp only [siftdownFuel, if_pos hs, hpp, hxp, Bool.false_eq_true, if_false]

theorem siftdownFuel_succ_root {lt : α → α → Bool} {s fuel pos : Nat}
    {h : List α} {x : α} (hs : ¬ s < pos) :
    siftdownFuel lt s (fuel + 1) pos h x = h.set pos x := by
  simp only [siftdownFuel, if_neg hs]

/-- Bubble-up phase: under the hole invariants, `siftdownFuel` heap-orders the
subtree rooted at `s` and leaves every slot outside that subtree unchanged. -/
theorem siftdownFuel_pairs {lt : α → α → Bool} (hlt : LtOk lt) (s : Nat) (x : α) :
    ∀ (fuel pos : Nat) (h : List α), Desc s pos → pos < h.length → pos ≤ fuel →
      (∀ i j, Desc s i → i ≠ pos → j ≠ pos → IsChild i j → PairOK lt h i j) →
      (∀ j y, IsChild pos j → h.get? j = some y → lt y x = false) →
      (∀ pp j, IsChild pp pos → Desc s pp → IsChild pos j → PairOK lt h pp j) →
      (∀ i j, Desc s i → IsChild i j → PairOK lt (siftdownFuel lt s fuel pos h x) i j)
      ∧ ∀ k, ¬ Desc s k → (siftdownFuel lt s fuel pos h x).get? k = h.get? k := by
  intro fuel
  induction fuel with
  | zero =>
    intro pos h hd hp hf J1 J2 _J3
    have hpos : pos = 0 := Nat.le_zero.mp hf
    subst hpos
    exact siftdownSettle s x 0 h hd hp J1 J2
      (fun i y hci _ _ => absurd hci.lt (Nat.not_lt_zero i))
  | succ fuel ih =>
    intro pos h hd hp hf J1 J2 J3
    by_cases hs : s < pos
    · cases hpp : h.get? ((pos - 1) / 2) with
      | none =>
        exfalso
        have := List.get?_eq_none.mp hpp
        omega
      | some parent =>
        have hchild : IsChild ((pos - 1) / 2) pos := isChild_parent (by omega)
        have hdpp : Desc s ((pos - 1) / 2) := hd.parent (by omega) hchild
        have hppne : (pos - 1) / 2 ≠ pos := by omega
        cases hxp : lt x parent with
        | true =>
          rw [siftdownFuel_succ_step hs hpp hxp]
          -- `newitem < parent`: the parent moves down into the hole and the
          -- hole moves up; re-establish the three invariants at the parent.
          have key := ih ((pos - 1) / 2) (h.set pos parent)
            hdpp (by simp; omega) (by omega)
            (by -- J1 at the new hole
              intro i j hdi hip hjp hc a b ga gb
              by_cases hj : j = pos
              · exact absurd (hj ▸ hc : IsChild i pos).parent_eq hip
              · by_cases hi : i = pos
                · rw [hi, List.get?_set_eq_of_lt parent hp] at ga
                  cases ga
                  rw [List.get?_set_ne _ _ (fun he => hj he.symm)] at gb
                  exact J3 ((pos - 1) / 2) j hchild hdpp (hi ▸ hc) parent b hpp gb
                · rw [List.get?_set_ne _ _ (fun he => hi he.symm)] at ga
                  rw [List.get?_set_ne _ _ (fun he => hj he.symm)] at gb
                  exact J1 i j hdi hi hj hc a b ga gb)
            (by -- J2 at the new hole
              intro j y hc gj
              by_cases hj : j = pos
              · rw [hj, List.get?_set_eq_of_lt parent hp] at gj
                cases gj
                exact hlt.asym hxp
              · rw [List.get?_set_ne _ _ (fun he => hj he.symm)] at gj
                cases hyx : lt y x with
                | false => rfl
                | true =>
                  have h1 : lt y parent = true := hlt.lt_trans y x parent hyx hxp
                  have h2 := J1 ((pos - 1) / 2) j hdpp hppne hj hc parent y hpp gj
                  rw [h1] at h2
                  exact h2)
            (by -- J3 at the new hole
              intro ppp j hcp hdppp hcj a b gppp gj
              have hpppne : ppp ≠ pos := by
                have h1 := hcp.lt
                omega
              rw [List.get?_set_ne _ _ (fun he => hpppne he.symm)] at gppp
              by_cases hj : j = pos
              · rw [hj, List.get?_set_eq_of_lt parent hp] at gj
                cases gj
                exact J1 ppp ((pos - 1) / 2) hdppp hpppne hppne hcp a parent
                  gppp hpp
              · rw [List.get?_set_ne _ _ (fun he => hj he.symm)] at gj
                have h1 := J1 ppp ((pos - 1) / 2) hdppp hpppne hppne hcp a parent
                  gppp hpp
                have h2 := J1 ((pos - 1) / 2) j hdpp hppne hj hcj parent b hpp gj
                exact hlt.nlt_trans a parent b h1 h2)
          refine ⟨key.1, fun k hk => ?_⟩
          rw [key.2 k hk]
          have hne : pos ≠ k := fun he => hk (he ▸ hd)
          exact List.get?_set_ne _ _ hne
        | false =>
          rw [siftdownFuel_succ_settle hs hpp hxp]
          -- `not newitem < parent`: the item settles at the hole.
          exact siftdownSettle s x pos h hd hp J1 J2
            (fun i y hci hdi gi => by
              have hieq : i = (pos - 1) / 2 := hci.parent_eq
              subst hieq
              rw [hpp] at gi
              cases gi
              exact hxp)
    · rw [siftdownFuel_succ_root hs]
      exact siftdownSettle s x pos h hd hp J1 J2
        (fun i y hci hdi _ => absurd hdi.le (by have := hci.lt; omega))

/-- One descend step of `siftupFuel`: lifting the chosen child `cp` into the
hole at `pos` re-establishes the descend invariants at `cp`. -/
theorem siftupDescendInv {lt : α → α → Bool} (s pos cp : Nat) (h : List α)
    (hd : Desc s pos) (hchild : IsChild pos cp) (hcp : cp < h.length)
    (hmin : ∀ oc y, IsChild pos oc → oc ≠ cp → h.get? oc = some y →
      lt y (h.get ⟨cp, hcp⟩) = false)
    (D1 : ∀ i j, Desc s i → i ≠ pos → j ≠ pos → IsChild i j → PairOK lt h i j)
    (D2 : ∀ pp j, IsChild pp pos → Desc s pp → IsChild pos j → PairOK lt h pp j) :
    (∀ i j, Desc s i → i ≠ cp → j ≠ cp → IsChild i j →
        PairOK lt (h.set pos (h.get ⟨cp, hcp⟩)) i j)
    ∧ (∀ pp j, IsChild pp cp → Desc s pp → IsChild cp j →
        PairOK lt (h.set pos (h.get ⟨cp, hcp⟩)) pp j) := by
  have hple : pos < h.length := Nat.lt_trans hchild.lt hcp
  constructor
  · intro i j hdi hic hjc hc a b ga gb
    by_cases hj : j = pos
    · have hij : i ≠ pos := by have := hc.lt; omega
      rw [List.get?_set_ne _ _ (fun he => hij he.symm)] at ga
      rw [hj, List.get?_set_eq_of_lt _ hple] at gb
      cases gb
      exact D2 i cp (hj ▸ hc) hdi hchild a (h.get ⟨cp, hcp⟩) ga
        (List.get?_eq_get hcp)
    · by_cases hi : i = pos
      · rw [hi, List.get?_set_eq_of_lt _ hple] at ga
        cases ga
        rw [List.get?_set_ne _ _ (fun he => hj he.symm)] at gb
        exact hmin j b (hi ▸ hc) hjc gb
      · rw [List.get?_set_ne _ _ (fun he => hi he.symm)] at ga
        rw [List.get?_set_ne _ _ (fun he => hj he.symm)] at gb
        exact D1 i j hdi hi hj hc a b ga gb
  · intro pp j hcpp _hdpp hcj a b gpp gj
    have hpp : pp = pos := by rw [hcpp.parent_eq, hchild.parent_eq]
    rw [hpp, List.get?_set_eq_of_lt _ hple] at gpp
    cases gpp
    have hjpos : j ≠ pos := by have := hcj.lt; have := hchild.lt; omega
    have hjcp : j ≠ cp := Nat.ne_of_gt hcj.lt
    rw [List.get?_set_ne _ _ (fun he => hjpos he.symm)] at gj
    exact D1 cp j (hd.step hchild) (Nat.ne_of_gt hchild.lt) hjpos hcj
      (h.get ⟨cp, hcp⟩) b (List.get?_eq_get hcp) gj

/-- Descend phase: under the descend invariants, `siftupFuel` heap-orders the
subtree rooted at `s` and leaves slots outside that subtree unchanged. -/
theorem siftupFuel_pairs {lt : α → α → Bool} (hlt : LtOk lt) (s : Nat) (x : α) :
    ∀ (fuel pos : Nat) (h : List α), Desc s pos → pos < h.length →
      h.length - pos ≤ fuel →
      (∀ i j, Desc s i → i ≠ pos → j ≠ pos → IsChild i j → PairOK lt h i j) →
      (∀ pp j, IsChild pp pos → Desc s pp → IsChild pos j → PairOK lt h pp j) →
      (∀ i j, Desc s i → IsChild i j → PairOK lt (siftupFuel lt s fuel pos h x) i j)
      ∧ ∀ k, ¬ Desc s k → (siftupFuel lt s fuel pos h x).get? k = h.get? k := by
  intro fuel
  induction fuel with
  | zero => intro pos h _ hp hf _ _; omega
  | succ fuel ih =>
    intro pos h hd hp hf D1 D2
    have step : ∀ (cp : Nat) (hchild : IsChild pos cp) (hcp : cp < h.length),
        (∀ oc y, IsChild pos oc → oc ≠ cp → h.get? oc = some y →
          lt y (h.get ⟨cp, hcp⟩) = false) →
        (∀ i j, Desc s i → IsChild i j →
          PairOK lt (siftupFuel lt s fuel cp (h.set pos (h.get ⟨cp, hcp⟩)) x) i j)
        ∧ ∀ k, ¬ Desc s k →
          (siftupFuel lt s fuel cp (h.set pos (h.get ⟨cp, hcp⟩)) x).get? k
            = h.get? k := by
      intro cp hchild hcp hmin
      have inv := siftupDescendInv s pos cp h hd hchild hcp hmin D1 D2
      have key := ih cp (h.set pos (h.get ⟨cp, hcp⟩)) (hd.step hchild)
        (by simpa using hcp) (by simp; have := hchild.lt; omega) inv.1 inv.2
      refine ⟨key.1, fun k hk => ?_⟩
      rw [key.2 k hk]
      have : pos ≠ k := fun he => hk (he ▸ hd)
      exact List.get?_set_ne _ _ this
    simp only [siftupFuel]
    split
    · rename_i hc
      split
      · rename_i hr
        split
        · rename_i hlr
          exact step (2 * pos + 1) (Or.inl rfl) hc
            (fun oc y hoc hne g => by
              have hoc2 : oc = 2 * pos + 2 := by
                cases hoc with
                | inl he => exact absurd he hne
                | inr he => exact he
              subst hoc2
              rw [List.get?_eq_get hr] at g
              cases g
              exact hlt.asym hlr)
        · rename_i hlr
          exact step (2 * pos + 2) (Or.inr rfl) hr
            (fun oc y hoc hne g => by
              have hoc1 : oc = 2 * pos + 1 := by
                cases hoc with
                | inl he => exact he
                | inr he => exact absurd he hne
              subst hoc1
              rw [List.get?_eq_get hc] at g
              cases g
              simpa using hlr)
      · rename_i hr
        exact step (2 * pos + 1) (Or.inl rfl) hc
          (fun oc y hoc hne g => by
            have hoc2 : oc = 2 * pos + 2 := by
              cases hoc with
              | inl he => exact absurd he hne
              | inr he => exact he
            subst hoc2
            have := (List.get?_eq_some.mp g).1
            omega)
    · rename_i hc
      -- the hole reached a leaf: place `x` there and bubble it up
      have key := siftdownFuel_pairs hlt s x pos pos (h.set pos x) hd
        (by simpa using hp) (Nat.le_refl pos)
        (by intro i j hdi hip hjp hcij a b ga gb
            rw [List.get?_set_ne _ _ (fun he => hip he.symm)] at ga
            rw [List.get?_set_ne _ _ (fun he => hjp he.symm)] at gb
            exact D1 i j hdi hip hjp hcij a b ga gb)
        (by intro j y hcj gj
            exfalso
            have hj : j ≠ pos := Nat.ne_of_gt hcj.lt
            rw [List.get?_set_ne _ _ (fun he => hj he.symm)] at gj
            have := (List.get?_eq_some.mp gj).1
            cases hcj with
            | inl he => omega
            | inr he => omega)
        (by intro pp j hcpp hdpp hcj a b gpp gj
            exfalso
            have hj : j ≠ pos := Nat.ne_of_gt hcj.lt
            rw [List.get?_set_ne _ _ (fun he => hj he.symm)] at gj
            have := (List.get?_eq_some.mp gj).1
            cases hcj with
            | inl he => omega
            | inr he => omega)
      refine ⟨key.1, fun k hk => ?_⟩
      rw [key.2 k hk]
      have : pos ≠ k := fun he => hk (he ▸ hd)
      exact List.get?_set_ne _ _ this

/-- `_siftup(heap, pos)`: if both subtrees strictly below `pos` are heaps,
the subtree rooted at `pos` becomes a heap and nothing outside it moves. -/
theorem siftup_pairs {lt : α → α → Bool} (hlt : LtOk lt) {h : List α} {pos : Nat}
    (hp : pos < h.length)
    (pre : ∀ i j, Desc pos i → i ≠ pos → IsChild i j → PairOK lt h i j) :
    (∀ i j, Desc pos i → IsChild i j → PairOK lt (siftup lt h pos) i j)
    ∧ ∀ k, ¬ Desc pos k → (siftup lt h pos).get? k = h.get? k := by
  unfold siftup
  cases hx : h.get? pos with
  | none => exact absurd (List.get?_eq_none.mp hx) (by omega)
  | some x =>
    exact siftupFuel_pairs hlt pos x h.length pos h Desc.refl hp (by omega)
      (fun i j hdi hip hjp hc => pre i j hdi hip hc)
      (fun pp j hcpp hdpp _ => absurd hdpp (not_desc_of_lt hcpp.lt))

theorem heapifyGo_isHeap {lt : α → α → Bool} (hlt : LtOk lt) :
    ∀ (k : Nat) (h : List α), HeapFrom lt h k → IsHeap lt (heapifyGo lt h k) := by
  intro k
  induction k with
  | zero =>
    intro h hf
    exact fun i j hc => hf i j (Nat.zero_le i) hc
  | succ k ih =>
    intro h hf
    rw [heapifyGo]
    apply ih
    by_cases hk : k < h.length
    · have key := siftup_pairs hlt hk
        (fun i j hdi hik hc => hf i j (by have := hdi.le; omega) hc)
      intro i j hki hc a b ga gb
      by_cases hdi : Desc k i
      · exact key.1 i j hdi hc a b ga gb
      · have hik : k ≠ i := fun he => hdi (he ▸ Desc.refl)
        have hjk : j ≠ k := fun he => by have := hc.lt; omega
        have hdj : ¬ Desc k j := fun hdj => hdi (hdj.parent hjk hc)
        rw [key.2 i hdi] at ga
        rw [key.2 j hdj] at gb
        exact hf i j (by omega) hc a b ga gb
    · have hsu : siftup lt h k = h := by
        unfold siftup
        rw [List.get?_eq_none.mpr (Nat.le_of_not_lt hk)]
      rw [hsu]
      intro i j hki hc a b ga gb
      rcases Nat.eq_or_lt_of_le hki with he | hlt'
      · exfalso
        have h1 := (List.get?_eq_some.mp ga).1
        omega
      · exact hf i j hlt' hc a b ga gb

/-- `heapq.heapify` establishes the heap invariant on any list. -/
theorem pyHeapify_isHeap {lt : α → α → Bool} (hlt : LtOk lt) (h : List α) :
    IsHeap lt (pyHeapify lt h) := by
  apply heapifyGo_isHeap hlt
  intro i j hki hc a b _ gb
  exfalso
  have := (List.get?_eq_some.mp gb).1
  rcases hc with rfl | rfl <;> omega

/-- `heappop` returns the root of the list. -/
theorem heappop_root {lt : α → α → Bool} {h h' : List α} {e : α}
    (hp : heappop lt h = some (e, h')) : h.get? 0 = some e := by
  unfold heappop at hp
  cases hl : h.getLast? with
  | none => rw [hl] at hp; exact absurd hp (by simp)
  | some lastelt =>
    rw [hl] at hp
    have hne : h ≠ [] := fun he => by rw [he] at hl; simp at hl
    have hsplit := List.dropLast_append_getLast hne
    have hlast : h.getLast hne = lastelt := by
      have := List.getLast?_eq_getLast_of_ne_nil hne
      rw [hl] at this
      exact (Option.some_inj.mp this).symm
    cases hd : h.dropLast with
    | nil =>
      rw [hd] at hp
      simp only [Option.some_inj] at hp
      have he : h = [lastelt] := by
        rw [← hsplit, hd, hlast]
        rfl
      rw [he, ← (Prod.mk.injEq _ _ _ _).mp hp |>.1]
      rfl
    | cons b rest =>
      rw [hd] at hp
      simp only [Option.some_inj] at hp
      have he : h = b :: (rest ++ [lastelt]) := by
        rw [← hsplit, hd, hlast]
        rfl
      rw [he, ← (Prod.mk.injEq _ _ _ _).mp hp |>.1]
      rfl

/-- `heappop` removes exactly its return value, as multisets. -/
theorem heappop_multiset {lt : α → α → Bool} {h h' : List α} {e : α}
    (hp : heappop lt h = some (e, h')) : (↑h : Multiset α) = e ::ₘ ↑h' := by
  unfold heappop at hp
  cases hl : h.getLast? with
  | none => rw [hl] at hp; exact absurd hp (by simp)
  | some lastelt =>
    rw [hl] at hp
    have hne : h ≠ [] := fun he => by rw [he] at hl; simp at hl
    have hsplit := List.dropLast_append_getLast hne
    have hlast : h.getLast hne = lastelt := by
      have := List.getLast?_eq_getLast_of_ne_nil hne
      rw [hl] at this
      exact (Option.some_inj.mp this).symm
    cases hd : h.dropLast with
    | nil =>
      rw [hd] at hp
      simp only [Option.some_inj] at hp
      obtain ⟨he1, he2⟩ := (Prod.mk.injEq _ _ _ _).mp hp
      have he : h = [lastelt] := by rw [← hsplit, hd, hlast]; rfl
      rw [he, ← he1, ← he2]
      rfl
    | cons b rest =>
      rw [hd] at hp
      simp only [Option.some_inj] at hp
      obtain ⟨he1, he2⟩ := (Prod.mk.injEq _ _ _ _).mp hp
      have he : h = b :: (rest ++ [lastelt]) := by rw [← hsplit, hd, hlast]; rfl
      rw [he, ← he1, ← he2]
      have hm := siftup_multiset lt ((b :: rest).set 0 lastelt) 0
      calc (↑(b :: (rest ++ [lastelt])) : Multiset α)
          = b ::ₘ ↑(rest ++ [lastelt]) := (Multiset.cons_coe _ _).symm
        _ = b ::ₘ ↑(lastelt :: rest) := by
            congr 1
            exact Multiset.coe_eq_coe.mpr (List.perm_append_singleton _ _)
        _ = b ::ₘ ↑((b :: rest).set 0 lastelt) := rfl
        _ = b ::ₘ ↑(siftup lt ((b :: rest).set 0 lastelt) 0) := by rw [hm]

theorem heappop_isSome {lt : α → α → Bool} {h : List α} (hne : h ≠ []) :
    (heappop lt h).isSome := by
  unfold heappop
  cases hl : h.getLast? with
  | none => exact absurd (List.getLast?_eq_none_iff.mp hl) hne
  | some lastelt => cases h.dropLast <;> rfl

theorem heappop_mem {lt : α → α → Bool} {h h' : List α} {e x : α}
    (hp : heappop lt h = some (e, h')) (hx : x ∈ h') : x ∈ h := by
  have hm := heappop_multiset hp
  have : x ∈ (↑h : Multiset α) := by
    rw [hm]
    exact Multiset.mem_cons_of_mem (by simpa using hx)
  simpa using this

/-- `heappop` preserves the heap invariant. -/
theorem heappop_isHeap {lt : α → α → Bool} (hlt : LtOk lt) {h h' : List α} {e : α}
    (hh : IsHeap lt h) (hp : heappop lt h = some (e, h')) : IsHeap lt h' := by
  unfold heappop at hp
  cases hl : h.getLast? with
  | none => rw [hl] at hp; exact absurd hp (by simp)
  | some lastelt =>
    rw [hl] at hp
    have hne : h ≠ [] := fun he => by rw [he] at hl; simp at hl
    have hsplit := List.dropLast_append_getLast hne
    have hlast : h.getLast hne = lastelt := by
      have := List.getLast?_eq_getLast_of_ne_nil hne
      rw [hl] at this
      exact (Option.some_inj.mp this).symm
    cases hd : h.dropLast with
    | nil =>
      rw [hd] at hp
      simp only [Option.some_inj] at hp
      obtain ⟨_, he2⟩ := (Prod.mk.injEq _ _ _ _).mp hp
      rw [← he2]
      intro i j _ a b ga _
      simp at ga
    | cons b rest =>
      rw [hd] at hp
      simp only [Option.some_inj] at hp
      obtain ⟨_, he2⟩ := (Prod.mk.injEq _ _ _ _).mp hp
      rw [← he2]
      have he : h = b :: (rest ++ [lastelt]) := by rw [← hsplit, hd, hlast]; rfl
      have hlen : 0 < ((b :: rest).set 0 lastelt).length := by simp
      have pre : ∀ i j, Desc 0 i → i ≠ 0 → IsChild i j →
          PairOK lt ((b :: rest).set 0 lastelt) i j := by
        intro i j _ hi0 hc a b' ga gb
        have hj0 : j ≠ 0 := by have := hc.lt; omega
        have hgi : (b :: rest).get? i = some a := by
          rwa [List.get?_set_ne _ _ (fun hi => hi0 hi.symm)] at ga
        have hgj : (b :: rest).get? j = some b' := by
          rwa [List.get?_set_ne _ _ (fun hj => hj0 hj.symm)] at gb
        have hi : h.get? i = some a := by
          rw [he]
          have hil : i < (b :: rest).length := (List.get?_eq_some.mp hgi).1
          rw [show (b :: (rest ++ [lastelt])) = (b :: rest) ++ [lastelt] from rfl]
          rw [List.get?_append hil]
          exact hgi
        have hj : h.get? j = some b' := by
          rw [he]
          have hjl : j < (b :: rest).length := (List.get?_eq_some.mp hgj).1
          rw [show (b :: (rest ++ [lastelt])) = (b :: rest) ++ [lastelt] from rfl]
          rw [List.get?_append hjl]
          exact hgj
        exact hh i j hc a b' hi hj
      have key := siftup_pairs hlt hlen pre
      exact fun i j hc => key.1 i j (desc_zero i) hc

/-- In a heap, no element is strictly below the root. -/
theorem isHeap_root_min {lt : α → α → Bool} (hlt : LtOk lt) {h : List α} {r : α}
    (hh : IsHeap lt h) (hr : h.get? 0 = some r) :
    ∀ j y, h.get? j = some y → lt y r = false := by
  intro j
  induction j using Nat.strong_induction_on with
  | _ j ih =>
    intro y hy
    cases j with
    | zero =>
      rw [hr] at hy
      cases hy
      exact hlt.irrefl r
    | succ n =>
      have hc : IsChild ((n + 1 - 1) / 2) (n + 1) := isChild_parent (Nat.succ_pos n)
      have hjl : n + 1 < h.length := (List.get?_eq_some.mp hy).1
      have hpl : (n + 1 - 1) / 2 < h.length := by have := hc.lt; omega
      have hp := List.get?_eq_get hpl
      have h1 := hh _ _ hc _ y hp hy
      have h2 := ih ((n + 1 - 1) / 2) (by have := hc.lt; omega) _ hp
      exact hlt.nlt_trans r _ y h2 h1

/-- Repeatedly popping a valid heap yields the elements in non-descending
order of the comparison. -/
theorem popAllFuel_sorted {lt : α → α → Bool} (hlt : LtOk lt) :
    ∀ (fuel : Nat) (h : List α), IsHeap lt h →
      List.Chain' (fun a b => lt b a = false) (popAllFuel lt fuel h) := by
  intro fuel
  induction fuel with
  | zero => intro h _; exact List.chain'_nil
  | succ fuel ih =>
    intro h hh
    rw [popAllFuel]
    cases hp : heappop lt h with
    | none => exact List.chain'_nil
    | some eh' =>
      obtain ⟨e, h'⟩ := eh'
      have hh' := heappop_isHeap hlt hh hp
      rw [List.chain'_cons']
      refine ⟨?_, ih h' hh'⟩
      intro y hy
      have hyh : y ∈ h' := by
        cases fuel with
        | zero => simp [popAllFuel] at hy
        | succ fuel =>
          rw [popAllFuel] at hy
          cases hp' : heappop lt h' with
          | none => rw [hp'] at hy; simp at hy
          | some eh'' =>
            obtain ⟨e', h''⟩ := eh''
            rw [hp'] at hy
            simp only [List.head?_cons, Option.mem_some_iff] at hy
            rw [← hy]
            exact List.mem_iff_get?.mpr ⟨0, heappop_root hp'⟩
      have hmem : y ∈ h := heappop_mem hp hyh
      obtain ⟨n, hn⟩ := List.mem_iff_get?.mp hmem
      exact isHeap_root_min hlt hh (heappop_root hp) n y hn

/-- Popping with enough fuel drains the queue completely, preserving the
multiset of elements. -/
theorem popAllFuel_multiset (lt : α → α → Bool) :
    ∀ (fuel : Nat) (h : List α), h.length ≤ fuel →
      (↑(popAllFuel lt fuel h) : Multiset α) = ↑h := by
  intro fuel
  induction fuel with
  | zero =>
    intro h hf
    have : h = [] := List.length_eq_zero.mp (Nat.le_zero.mp hf)
    rw [this]
    rfl
  | succ fuel ih =>
    intro h hf
    rw [popAllFuel]
    cases hp : heappop lt h with
    | none =>
      have hh0 : h = [] := by
        by_contra hne
        have hs := @heappop_isSome _ lt _ hne
        rw [hp] at hs
        simp at hs
      rw [hh0]
    | some eh' =>
      obtain ⟨e, h'⟩ := eh'
      have hm := heappop_multiset hp
      have hlen : h'.length ≤ fuel := by
        have hc := congrArg Multiset.card hm
        simp only [Multiset.coe_card, Multiset.card_cons] at hc
        omega
      rw [← Multiset.cons_coe, ih h' hlen, hm]

/-- `popAll` of a valid heap: sorted output, same multiset. -/
theorem popAll_sorted {lt : α → α → Bool} (hlt : LtOk lt) (h : List α)
    (hh : IsHeap lt h) :
    List.Chain' (fun a b => lt b a = false) (popAll lt h)
    ∧ (↑(popAll lt h) : Multiset α) = ↑h :=
  ⟨popAllFuel_sorted hlt h.length h hh,
   popAllFuel_multiset lt h.length h (Nat.le_refl _)⟩

end PyHeap

namespace SimLoop

open PyHeap

open PyHeap

theorem evLT_ok {α : Type} : LtOk (@evLT α) where
  irrefl a := by simp [evLT]
  lt_trans a b c hab hbc := by
    simp only [evLT, decide_eq_true_eq] at *
    exact lt_trans hab hbc
  nlt_trans a b c hab hbc := by
    simp only [evLT, decide_eq_false_iff_not, not_lt] at *
    exact le_trans hab hbc

/-- A dispatching step pops the heap minimum: provided the handlers only
schedule events at or after the dispatched time, the next queue is again a
heap whose elements all lie at or after the dispatched event's time, and the
dispatched event was in the queue. -/
theorem simStep_inv {σ α : Type} {D : σ → SEvent α → σ × Option (List (SEvent α))}
    (hD : ∀ s e, ∀ e' ∈ ((D s e).2.getD []), e.time ≤ e'.time)
    {maxT : ℚ} {c : SimConfig σ α} {e : SEvent α} {c' : SimConfig σ α}
    (hs : simStep D maxT c = some (e, c')) (hh : IsHeap evLT c.q) :
    IsHeap evLT c'.q ∧ (∀ x ∈ c'.q, e.time ≤ x.time) ∧ e ∈ c.q := by
  unfold simStep at hs
  split at hs
  · cases hpp : heappop evLT c.q with
    | none => rw [hpp] at hs; exact absurd hs (by simp)
    | some p =>
      obtain ⟨e0, q1⟩ := p
      rw [hpp] at hs
      simp only [Option.some_inj] at hs
      obtain ⟨he, hc'⟩ := (Prod.mk.injEq _ _ _ _).mp hs
      have hroot := heappop_root hpp
      have hmin := isHeap_root_min evLT_ok hh hroot
      have hminq : ∀ x ∈ c.q, e0.time ≤ x.time := by
        intro x hx
        obtain ⟨n, hn⟩ := List.mem_iff_get?.mp hx
        have := hmin n x hn
        simpa [evLT, not_lt] using this
      have hq1 : ∀ x ∈ q1, e0.time ≤ x.time :=
        fun x hx => hminq x (heappop_mem hpp hx)
      have hq1h : IsHeap evLT q1 := heappop_isHeap evLT_ok hh hpp
      have he0 : e0 ∈ c.q := List.mem_iff_get?.mpr ⟨0, hroot⟩
      subst he
      cases hr : (D c.state e0).2 with
      | none =>
        rw [hr] at hc'
        rw [← hc']
        exact ⟨hq1h, hq1, he0⟩
      | some evs =>
        rw [hr] at hc'
        rw [← hc']
        refine ⟨pyHeapify_isHeap evLT_ok _, ?_, he0⟩
        intro x hx
        have hx' : x ∈ q1 ++ evs := by
          have hm := pyHeapify_multiset (evLT (α := α)) (q1 ++ evs)
          have : x ∈ (↑(q1 ++ evs) : Multiset (SEvent α)) := by
            rw [← hm]
            simpa using hx
          simpa using this
        rcases List.mem_append.mp hx' with hx1 | hx2
        · exact hq1 x hx1
        · have := hD c.state e0
          rw [hr] at this
          exact this x hx2
  · exact absurd hs (by simp)

/-- Once an event at or beyond the horizon has been dispatched, the loop
guard `t < max_t` fails and the loop exits at the next iteration. -/
theorem simStep_halt_after {σ α : Type}
    {D : σ → SEvent α → σ × Option (List (SEvent α))} {maxT : ℚ}
    {c c' : SimConfig σ α} {e : SEvent α}
    (hs : simStep D maxT c = some (e, c')) (he : maxT ≤ e.time) :
    simStep D maxT c' = none := by
  have ht : c'.t = e.time := by
    unfold simStep at hs
    split at hs
    · cases hpp : heappop evLT c.q with
      | none => rw [hpp] at hs; exact absurd hs (by simp)
      | some p =>
        obtain ⟨e0, q1⟩ := p
        rw [hpp] at hs
        simp only [Option.some_inj] at hs
        obtain ⟨he0, hc'⟩ := (Prod.mk.injEq _ _ _ _).mp hs
        rw [← hc', he0]
    · exact absurd hs (by simp)
  unfold simStep
  rw [if_neg]
  intro hcon
  rw [ht] at hcon
  exact absurd hcon.2 (not_lt.mpr he)

/-- Dispatch-time monotonicity of the trace, given a heap-shaped queue whose
events all lie at or after `b` and future-only handlers. -/
theorem runTrace_mono {σ α : Type} {D : σ → SEvent α → σ × Option (List (SEvent α))}
    (hD : ∀ s e, ∀ e' ∈ ((D s e).2.getD []), e.time ≤ e'.time) (maxT : ℚ) :
    ∀ (n : ℕ) (c : SimConfig σ α) (b : ℚ), IsHeap evLT c.q →
      (∀ x ∈ c.q, b ≤ x.time) →
      (∀ y ∈ runTrace D maxT n c, b ≤ y.time)
      ∧ List.Chain' (fun a a' => a.time ≤ a'.time) (runTrace D maxT n c) := by
  intro n
  induction n with
  | zero => intro c b _ _; exact ⟨by simp [runTrace], by simp [runTrace]⟩
  | succ n ih =>
    intro c b hh hb
    rw [runTrace]
    cases hs : simStep D maxT c with
    | none => exact ⟨by simp, by simp⟩
    | some p =>
      obtain ⟨e, c'⟩ := p
      have inv := simStep_inv hD hs hh
      have hbe : b ≤ e.time := hb e inv.2.2
      have ih' := ih c' e.time inv.1 inv.2.1
      constructor
      · intro y hy
        rcases List.mem_cons.mp hy with hye | hy'
        · rw [hye]; exact hbe
        · exact le_trans hbe (ih'.1 y hy')
      · rw [List.chain'_cons']
        refine ⟨?_, ih'.2⟩
        intro y hy
        have hym : y ∈ runTrace D maxT n c' := by
          cases htr : runTrace D maxT n c' with
          | nil => rw [htr] at hy; simp at hy
          | cons z zs =>
            rw [htr] at hy
            simp only [List.head?_cons, Option.mem_some_iff] at hy
            rw [← hy]
            exact List.mem_cons_self z zs
        exact ih'.1 y hym

end SimLoop

namespace EventQueue

open PyHeap

theorem ltOm_iff (a b : OmEvent) :
    ltOm a b = true ↔ a.time < b.time ∨ (a.time = b.time ∧ a.slot < b.slot) := by
  simp [ltOm]

theorem ltOm_false_iff (a b : OmEvent) :
    ltOm a b = false ↔ ¬ (a.time < b.time ∨ (a.time = b.time ∧ a.slot < b.slot)) := by
  rw [← ltOm_iff]
  cases ltOm a b <;> simp

theorem ltOm_ok : LtOk ltOm where
  irrefl a := by simp [ltOm]
  lt_trans a b c hab hbc := by
    rw [ltOm_iff] at *
    rcases hab with h1 | ⟨h1, h2⟩ <;> rcases hbc with h3 | ⟨h3, h4⟩
    · exact Or.inl (lt_trans h1 h3)
    · exact Or.inl (h3 ▸ h1)
    · exact Or.inl (by rw [h1]; exact h3)
    · exact Or.inr ⟨h1.trans h3, lt_trans h2 h4⟩
  nlt_trans a b c hab hbc := by
    rw [ltOm_false_iff] at *
    push_neg at hab hbc ⊢
    obtain ⟨hab1, hab2⟩ := hab
    obtain ⟨hbc1, hbc2⟩ := hbc
    refine ⟨le_trans hab1 hbc1, fun hca => ?_⟩
    have hba : b.time = a.time := le_antisymm (hca ▸ hbc1) hab1
    have hcb : c.time = b.time := hca.trans hba.symm
    exact le_trans (hab2 hba) (hbc2 hcb)

end EventQueue

namespace SimLoop

open PyHeap

open PyHeap

/-- Small-heap fact used to discharge heap hypotheses at concrete inputs. -/
theorem isHeap_of_short {α : Type} {lt : SEvent α → SEvent α → Bool}
    {h : List (SEvent α)} (hl : h.length ≤ 1) : PyHeap.IsHeap lt h := by
  intro i j hc x y _ gj
  exfalso
  have hj := (List.get?_eq_some.mp gj).1
  have := hc.lt
  omega

/-- `stepN` unfolding when the loop takes a step. -/
theorem stepN_succ_of_step {σ α : Type}
    {D : σ → SEvent α → σ × Option (List (SEvent α))} {maxT : ℚ}
    {c c' : SimConfig σ α} {e : SEvent α} {n : ℕ}
    (hs : simStep D maxT c = some (e, c')) :
    stepN D maxT (n + 1) c = stepN D maxT n c' := by
  rw [stepN, hs]

/-- `stepN` unfolding when the loop guard fails. -/
theorem stepN_succ_of_halt {σ α : Type}
    {D : σ → SEvent α → σ × Option (List (SEvent α))} {maxT : ℚ}
    {c : SimConfig σ α} {n : ℕ} (hs : simStep D maxT c = none) :
    stepN D maxT (n + 1) c = none := by
  rw [stepN, hs]

end SimLoop

open SimLoop PyHeap EventQueue in
/-- C1 (counterexample): the loop does *not* dispatch in non-decreasing time
order for every handler return permitted by the insert contract.  The insert
contract places no constraint on an inserted event's time, so a handler may
schedule an event before the current clock; `pastD` does exactly that (its
time-`5` event schedules a follow-up at time `3`), and the loop then
dispatches times `5, 3` — a strictly decreasing pair.  The initial queue is
a one-element list, a valid heap, so the failure is caused solely by the
past-time insertion. -/
theorem sim_loop_dispatch_not_monotone :
    runTrace pastD 100 2 pastC0 = [⟨5, 0⟩, ⟨3, 1⟩]
    ∧ ¬ List.Pairwise (fun a a' : SEvent ℕ => a.time ≤ a'.time)
        (runTrace pastD 100 2 pastC0) := by
  have ht : runTrace pastD 100 2 pastC0 = [⟨5, 0⟩, ⟨3, 1⟩] := by decide
  refine ⟨ht, ?_⟩
  rw [ht]
  intro hp
  rcases List.pairwise_cons.mp hp with ⟨h1, _⟩
  have h2 := h1 ⟨3, 1⟩ (List.mem_cons_self _ _)
  norm_num at h2

open SimLoop PyHeap in
/-- C1 (amended): events dispatched by `sim_loop` execute in non-decreasing
time order for every run whose initial event list satisfies the heap
invariant (as the loops' actual initial lists do) and whose handlers only
return events at or after the dispatched event's time (as every handler in
the repository does: all produced events are `t + nonnegative_delay`).  The
clock, being the time of the most recently dispatched event, is then
non-decreasing across the whole run. -/
theorem sim_loop_dispatch_monotone {σ α : Type}
    (D : σ → SEvent α → σ × Option (List (SEvent α))) (maxT : ℚ) (n : ℕ)
    (c : SimConfig σ α) (hq : IsHeap evLT c.q)
    (hD : ∀ s e, ∀ e' ∈ ((D s e).2.getD []), e.time ≤ e'.time) :
    List.Pairwise (fun a a' => a.time ≤ a'.time) (runTrace D maxT n c) := by
  haveI : IsTrans (SEvent α) (fun a a' => a.time ≤ a'.time) :=
    ⟨fun a b c hab hbc => le_trans hab hbc⟩
  rw [← List.chain'_iff_pairwise]
  cases n with
  | zero => exact List.chain'_nil
  | succ n =>
    rw [runTrace]
    cases hs : simStep D maxT c with
    | none => exact List.chain'_nil
    | some p =>
      obtain ⟨e, c'⟩ := p
      have inv := simStep_inv hD hs hq
      have h := runTrace_mono hD maxT n c' e.time inv.1 inv.2.1
      rw [List.chain'_cons']
      exact ⟨fun y hy => h.1 y (List.mem_of_mem_head? hy), h.2⟩

open SimLoop PyHeap in
/-- Witness for the amended C1 at a concrete run. -/
theorem sim_loop_dispatch_monotone_witness :
    List.Pairwise (fun a a' : SEvent Unit => a.time ≤ a'.time)
      (runTrace noopD 10 3 ⟨(), [⟨1, ()⟩], 0⟩) :=
  sim_loop_dispatch_monotone noopD 10 3 ⟨(), [⟨1, ()⟩], 0⟩
    (isHeap_of_short (by simp))
    (by intro s e e' he'; simp [noopD] at he')

open SimLoop in
/-- C2 (counterexample): the loop does *not* stop before dispatching an
event whose time meets the stop condition `e.time >= max_t`.  The guard
`t < max_t` is evaluated with the *previous* event's time before the pop, so
the first event at or beyond the horizon is popped and its handler invoked.
Here `max_t = 5` and the only event has time `10`: the trace shows it was
dispatched, and the dispatch counter in the actor state reached `1`. -/
theorem sim_loop_dispatches_beyond_horizon :
    runTrace countD 5 2 lateC0 = [⟨10, ()⟩]
    ∧ stepN countD 5 1 lateC0 = some ⟨1, [], 10⟩
    ∧ ((5 : ℚ) ≤ 10) :=
  ⟨by decide, by decide, by norm_num⟩

open SimLoop in
/-- C2 (amended): when the loop pops a minimum-time event `e` with
`e.time >= max_t`, it *does* dispatch `e` — and `e` is the final dispatch:
the guard `t < max_t` fails at the next iteration, so the loop terminates
immediately after dispatching exactly one event at or beyond the horizon. -/
theorem sim_loop_final_dispatch {σ α : Type}
    (D : σ → SEvent α → σ × Option (List (SEvent α))) (maxT : ℚ)
    (c c' : SimConfig σ α) (e : SEvent α)
    (hs : simStep D maxT c = some (e, c')) (he : maxT ≤ e.time) :
    runTrace D maxT 1 c = [e] ∧ stepN D maxT 2 c = none := by
  constructor
  · rw [runTrace, hs]
    rfl
  · show stepN D maxT (1 + 1) c = none
    rw [stepN_succ_of_step hs]
    exact stepN_succ_of_halt (simStep_halt_after hs he)

open SimLoop in
/-- Witness for the amended C2 at a concrete run. -/
theorem sim_loop_final_dispatch_witness :
    runTrace countD 5 1 lateC0 = [⟨10, ()⟩] ∧ stepN countD 5 2 lateC0 = none :=
  sim_loop_final_dispatch countD 5 lateC0 ⟨1, [], 10⟩ ⟨10, ()⟩
    (by decide) (by norm_num)

open PyHeap EventQueue in
/-- C3 (counterexample): equal-time events are *not* returned in insertion
order.  Two equal-time job-completion events (same handler, slots `1` and
`0`) inserted in the order slot `1`, slot `0` are extracted in the order
slot `0`, slot `1` — the reverse of their insertion order: `heapq` breaks
the tie by Python's tuple comparison (here the payload), not FIFO. -/
theorem eventQueue_tie_not_insertion_order :
    popAll ltOm (pyHeapify ltOm [⟨1, 1⟩, ⟨1, 0⟩]) = [⟨1, 0⟩, ⟨1, 1⟩]
    ∧ ([⟨1, 0⟩, ⟨1, 1⟩] : List OmEvent) ≠ [⟨1, 1⟩, ⟨1, 0⟩] := by
  refine ⟨by decide, by decide⟩

open PyHeap EventQueue in
/-- C3 (amended): for any sequence of events inserted into the event queue
in arbitrary order, repeatedly extracting the minimum returns exactly the
inserted events (as a multiset) in non-decreasing time order; but
equal-time events are returned in the order of the heap's tuple comparison
(time, then payload), which need not be their insertion order. -/
theorem eventQueue_pop_min_sorted (l : List OmEvent) :
    (↑(popAll ltOm (pyHeapify ltOm l)) : Multiset OmEvent) = ↑l
    ∧ List.Chain' (fun a b => a.time ≤ b.time) (popAll ltOm (pyHeapify ltOm l)) := by
  have hh := pyHeapify_isHeap ltOm_ok l
  have hs := popAll_sorted ltOm_ok _ hh
  refine ⟨hs.2.trans (pyHeapify_multiset ltOm l), ?_⟩
  refine List.Chain'.imp ?_ hs.1
  intro a b hab
  rw [ltOm_false_iff] at hab
  push_neg at hab
  exact hab.1

namespace SimLoop

open PyHeap

open PyHeap

theorem const_echo :
    ∀ (s : Unit) (e : SEvent Unit), ∀ e' ∈ ((constD s e).2.getD []), e'.time = e.time := by
  intro s e e' he'
  simp only [constD, Option.getD_some, List.mem_singleton] at he'
  rw [he']

theorem const_step : simStep constD 1 constC0 = some (⟨0, ()⟩, constC0) := by
  unfold simStep constC0 constD
  rw [if_pos ⟨by simp, by norm_num⟩]
  simp only [PyHeap.heappop, List.getLast?, List.dropLast, List.getLast_singleton]
  norm_num [PyHeap.pyHeapify, PyHeap.heapifyGo]

theorem const_stepN : ∀ n, stepN constD 1 n constC0 = some constC0 := by
  intro n
  induction n with
  | zero => rfl
  | succ n ih => rw [stepN_succ_of_step const_step, ih]

end SimLoop

open SimLoop in
/-- C6 (counterexample): the claim's drain case only bounds returned events
by `T + ε`, without requiring any time increase, and that disjunct defeats
termination: a handler that re-schedules one event at exactly the dispatched
event's time keeps every time in the run at the constant `0` — below the
drain bound `T + ε = 2` for horizon `T = 1`, and exactly representable in
binary floating point — yet the configuration is a fixed point of the loop,
so no iteration count halts it. -/
theorem sim_loop_drain_no_termination :
    (∀ (s : Unit) (e : SEvent Unit), ∀ e' ∈ ((constD s e).2.getD []), e'.time = e.time)
    ∧ (∀ n, stepN constD 1 n constC0 = some constC0)
    ∧ ¬ ∃ n, stepN constD 1 n constC0 = none :=
  ⟨const_echo, const_stepN, fun ⟨n, hn⟩ => by
    rw [const_stepN n] at hn
    exact Option.noConfusion hn⟩

namespace SimLoop

open PyHeap

open PyHeap

theorem lvl_pos {maxT δ : ℚ} {e : SEvent α} (hδ : 0 < δ) (ht : e.time < maxT) :
    1 ≤ lvl maxT δ e := by
  unfold lvl
  have h : (0:ℚ) < (maxT - e.time) / δ := div_pos (by linarith) hδ
  exact Nat.one_le_iff_ne_zero.mpr (Nat.pos_iff_ne_zero.mp (Nat.ceil_pos.mpr h))

theorem lvl_decrease {maxT δ : ℚ} {e e' : SEvent α} (hδ : 0 < δ)
    (ht : e.time < maxT) (hstep : e.time + δ ≤ e'.time) :
    lvl maxT δ e' ≤ lvl maxT δ e - 1 := by
  have hL := lvl_pos hδ ht
  unfold lvl at *
  rw [Nat.ceil_le]
  have hcast : ((⌈(maxT - e.time) / δ⌉₊ - 1 : ℕ) : ℚ)
      = (⌈(maxT - e.time) / δ⌉₊ : ℚ) - 1 := by
    rw [Nat.cast_sub hL]
    norm_num
  rw [hcast]
  have h1 : (maxT - e'.time) / δ ≤ (maxT - e.time - δ) / δ :=
    (div_le_div_right hδ).mpr (by linarith)
  have h2 : (maxT - e.time - δ) / δ = (maxT - e.time) / δ - 1 := by
    rw [sub_div, div_self (ne_of_gt hδ)]
  have h3 : (maxT - e.time) / δ ≤ (⌈(maxT - e.time) / δ⌉₊ : ℚ) := Nat.le_ceil _
  linarith

theorem qMeasure_cons (K : ℕ) (maxT δ : ℚ) (e : SEvent α) (q : Multiset (SEvent α)) :
    qMeasure K maxT δ (e ::ₘ q) = weight K maxT δ e + qMeasure K maxT δ q := by
  simp [qMeasure]

theorem qMeasure_add (K : ℕ) (maxT δ : ℚ) (q r : Multiset (SEvent α)) :
    qMeasure K maxT δ (q + r) = qMeasure K maxT δ q + qMeasure K maxT δ r := by
  simp [qMeasure]

/-- The queue multiset across one dispatching step: the dispatched event is
removed and the handler's returned events are added. -/
theorem simStep_queue_multiset {σ α : Type}
    {D : σ → SEvent α → σ × Option (List (SEvent α))} {maxT : ℚ}
    {c : SimConfig σ α} {e : SEvent α} {c' : SimConfig σ α}
    (hs : simStep D maxT c = some (e, c')) :
    ∃ q1 : List (SEvent α), (↑c.q : Multiset (SEvent α)) = e ::ₘ ↑q1
      ∧ (↑c'.q : Multiset (SEvent α)) = ↑q1 + ↑((D c.state e).2.getD []) := by
  unfold simStep at hs
  split at hs
  · cases hpp : heappop evLT c.q with
    | none => rw [hpp] at hs; exact absurd hs (by simp)
    | some p =>
      obtain ⟨e0, q1⟩ := p
      rw [hpp] at hs
      simp only [Option.some_inj] at hs
      obtain ⟨he, hc'⟩ := (Prod.mk.injEq _ _ _ _).mp hs
      subst he
      refine ⟨q1, heappop_multiset hpp, ?_⟩
      cases hr : (D c.state e0).2 with
      | none =>
        rw [hr] at hc'
        rw [← hc']
        simp
      | some evs =>
        rw [hr] at hc'
        rw [← hc']
        show (↑(pyHeapify evLT (q1 ++ evs)) : Multiset (SEvent α))
          = ↑q1 + ↑((some evs).getD [])
        rw [pyHeapify_multiset, ← Multiset.coe_add]
        rfl
  · exact absurd hs (by simp)

end SimLoop

open SimLoop PyHeap in
/-- C6 (amended): the loop terminates when follow-up events are at least a
fixed `δ > 0` later than the dispatched event and each dispatch returns at
most `K` events. -/
theorem sim_loop_bounded_increment_terminates {σ α : Type}
    (D : σ → SEvent α → σ × Option (List (SEvent α))) (maxT δ : ℚ) (K : ℕ)
    (hδ : 0 < δ)
    (hK : ∀ s e, ((D s e).2.getD []).length ≤ K)
    (hfut : ∀ s e, ∀ e' ∈ ((D s e).2.getD []), e.time + δ ≤ e'.time) :
    ∀ c : SimConfig σ α, ∃ n, stepN D maxT n c = none := by
  intro c
  generalize hm : qMeasure K maxT δ (↑c.q : Multiset (SEvent α)) = m
  induction m using Nat.strong_induction_on generalizing c with
  | _ m ih =>
    cases hs : simStep D maxT c with
    | none => exact ⟨1, stepN_succ_of_halt hs⟩
    | some p =>
      obtain ⟨e, c'⟩ := p
      by_cases hhor : maxT ≤ e.time
      · refine ⟨2, ?_⟩
        show stepN D maxT (1 + 1) c = none
        rw [stepN_succ_of_step hs]
        exact stepN_succ_of_halt (simStep_halt_after hs hhor)
      · push_neg at hhor
        obtain ⟨q1, hq, hq'⟩ := simStep_queue_multiset hs
        have hL : 1 ≤ lvl maxT δ e := lvl_pos hδ hhor
        have hqm : m = weight K maxT δ e + qMeasure K maxT δ (↑q1 : Multiset (SEvent α)) := by
          rw [← hm, hq, qMeasure_cons]
        have hbound : qMeasure K maxT δ (↑((D c.state e).2.getD []) : Multiset (SEvent α))
            ≤ K * (K + 1) ^ (lvl maxT δ e - 1) := by
          have heq : qMeasure K maxT δ (↑((D c.state e).2.getD []) : Multiset (SEvent α))
              = (((D c.state e).2.getD []).map (weight K maxT δ)).sum := by
            simp [qMeasure]
          rw [heq]
          have hmem : ∀ x ∈ ((D c.state e).2.getD []).map (weight K maxT δ),
              x ≤ (K + 1) ^ (lvl maxT δ e - 1) := by
            intro x hx
            obtain ⟨e', he', rfl⟩ := List.mem_map.mp hx
            unfold weight
            exact Nat.pow_le_pow_right (by omega)
              (lvl_decrease hδ hhor (hfut c.state e e' he'))
          calc (((D c.state e).2.getD []).map (weight K maxT δ)).sum
              ≤ (((D c.state e).2.getD []).map (weight K maxT δ)).length
                  • ((K + 1) ^ (lvl maxT δ e - 1)) :=
                List.sum_le_card_nsmul _ _ hmem
            _ = ((D c.state e).2.getD []).length * (K + 1) ^ (lvl maxT δ e - 1) := by
                rw [List.length_map, smul_eq_mul]
            _ ≤ K * (K + 1) ^ (lvl maxT δ e - 1) :=
                Nat.mul_le_mul_right _ (hK c.state e)
        have hwe : K * (K + 1) ^ (lvl maxT δ e - 1) < weight K maxT δ e := by
          unfold weight
          calc K * (K + 1) ^ (lvl maxT δ e - 1)
              < (K + 1) * (K + 1) ^ (lvl maxT δ e - 1) :=
                Nat.mul_lt_mul_of_lt_of_le (Nat.lt_succ_self K)
                  (Nat.le_refl _) (pow_pos (by omega) _)
            _ = (K + 1) ^ (lvl maxT δ e - 1 + 1) := by rw [pow_succ, Nat.mul_comm]
            _ = (K + 1) ^ lvl maxT δ e := by congr 1; omega
        have hdec : qMeasure K maxT δ (↑c'.q : Multiset (SEvent α)) < m := by
          rw [hq', qMeasure_add, hqm]
          omega
        obtain ⟨n, hn⟩ := ih _ hdec c' rfl
        exact ⟨n + 1, by rw [stepN_succ_of_step hs]; exact hn⟩

open SimLoop in
/-- Witness for the amended C6 at a concrete system. -/
theorem sim_loop_bounded_increment_terminates_witness :
    ∃ n, stepN noopD 1 n ⟨(), [⟨0, ()⟩], 0⟩ = none :=
  sim_loop_bounded_increment_terminates noopD 1 1 0 (by norm_num)
    (fun s e => by simp [noopD])
    (fun s e e' he' => by simp [noopD] at he')
    ⟨(), [⟨0, ()⟩], 0⟩

open RetrySim in
/-- C4 (counterexample): with `bucket_size = 5` (bucket starts full at
`5.0`) the fifth consecutive `should_retry()` call returns `false`, not
`true`: `should_retry` only grants a token while `bucket > 1.0`, so the
calls see buckets `5, 4, 3, 2, 1` and the fifth comparison `1.0 > 1.0`
fails.  The claimed prefix `true, true, true, true, true` is wrong; the
observed prefix is `true, true, true, true, false` (shown here with fill
rate `1/10`; the fill rate is never read by `should_retry`). -/
theorem adaptive_bucket5_fifth_call_false :
    retryCalls 5 (AdaptiveRetryStrategy.make (1/10) 5)
      = [true, true, true, true, false]
    ∧ ([true, true, true, true, false] : List Bool)
      ≠ [true, true, true, true, true] := by
  constructor
  · simp [retryCalls, AdaptiveRetryStrategy.make, AdaptiveRetryStrategy.should_retry]
    norm_num
  · decide

open RetrySim in
/-- C4 (amended): for an `AdaptiveRetryStrategy` with `bucket_size = 5`
(bucket starting full) and any fill rate, four consecutive
`should_retry()` calls without intervening `start()` refills return
`true, true, true, true`, and the fifth call returns `false`. -/
theorem adaptive_bucket5_calls (fill : ℚ) :
    retryCalls 5 (AdaptiveRetryStrategy.make fill 5)
      = [true, true, true, true, false] := by
  simp [retryCalls, AdaptiveRetryStrategy.make, AdaptiveRetryStrategy.should_retry]
  norm_num

open RetrySim in
/-- C5 (confirmed): a `CircuitBreakerRetryCall` whose shared breaker has
`max_rate = 0.1`, `calls = 10`, `failures = 2` returns `false` from
`should_retry()` for *every* inner strategy (over any inner state type and
transition function): the call first books the new failure
(`failures = 3`), and `3/10 > 1/10` opens the breaker before the inner
strategy is consulted. -/
theorem circuit_breaker_open_overrides_inner (σ : Type) (inner : σ → Bool × σ)
    (nrs : σ) :
    (CircuitBreakerRetryCall.should_retry inner ⟨⟨1/10, 10, 2⟩, nrs⟩).1 = false := by
  simp only [CircuitBreakerRetryCall.should_retry]
  rw [if_pos]
  norm_num

open SkiSim in
/-- C7 (confirmed): dispatching one `dequeue_skiiers` event at `t = 0` on a
`Lift` with `chair_width = 4`, `chair_period = 7.0` and ten `WAITING`
skiers queued leaves exactly `4` skiers out of the `WAITING` state, and
among the returned events exactly one is a new `dequeue_skiiers` event,
scheduled at time `7.0` — for every possible sequence of random ride-time
samples `rng`. -/
theorem lift_dequeue_boards_four (rng : ℕ → ℚ) :
    (dequeue_skiiers lift10 0 rng).map (fun p =>
        (p.1.skiiers.countP (fun sk => decide (sk.state ≠ SkiierState.WAITING)),
         p.2.filter (fun ev => decide (ev.handler = SkiHandler.dequeue_skiiers))))
      = some (4, [⟨7, SkiHandler.dequeue_skiiers⟩]) := by
  have h : (dequeue_skiiers lift10 0 rng).map (fun p =>
        (p.1.skiiers.countP (fun sk => decide (sk.state ≠ SkiierState.WAITING)),
         p.2.filter (fun ev => decide (ev.handler = SkiHandler.dequeue_skiiers))))
      = some (4, [⟨0 + 7, SkiHandler.dequeue_skiiers⟩]) := rfl
  rw [h]
  norm_num

open CollapseSim in
/-- C8 (confirmed): dispatching a timeout or response event tagged with a
sequence number different from the client's `current_try` is a no-op: it
returns no follow-up events (`None`) and leaves every `Stats` counter
(`starts`, `successes`, `retries`, `timeouts`) and every `Client` field
(`retries_left`, `current_try`) unchanged, whatever the clock and the
network-delay sample. -/
theorem client_stale_event_noop (c : ClientState) (st : StatData) (t : ℚ)
    (seq : ℤ) (nd : ℚ) (hseq : seq ≠ c.current_try) :
    Client.timeout c st t seq nd = (c, st, none)
    ∧ Client.done c st t seq = (c, st, none) := by
  constructor
  · unfold Client.timeout
    rw [if_neg hseq]
  · unfold Client.done
    rw [if_neg hseq]

open CollapseSim in
/-- Witness for C8 at a concrete stale dispatch. -/
theorem client_stale_event_noop_witness :
    Client.timeout ⟨3, 2⟩ ⟨5, 1, 1, 1⟩ 9 0 (1/2) = (⟨3, 2⟩, ⟨5, 1, 1, 1⟩, none)
    ∧ Client.done ⟨3, 2⟩ ⟨5, 1, 1, 1⟩ 9 0 = (⟨3, 2⟩, ⟨5, 1, 1, 1⟩, none) :=
  client_stale_event_noop ⟨3, 2⟩ ⟨5, 1, 1, 1⟩ 9 0 (1/2) (by decide)

namespace CacheSim

theorem popKey_eq_none_iff (m : List (ℕ × Bool)) (k : ℕ) :
    popKey m k = none ↔ k ∉ m.map Prod.fst := by
  induction m with
  | nil => simp [popKey]
  | cons e rest ih =>
    obtain ⟨k', v'⟩ := e
    simp only [popKey, List.map_cons, List.mem_cons]
    by_cases hk : k' = k
    · rw [if_pos hk]
      simp [hk]
    · rw [if_neg hk]
      cases hp : popKey rest k with
      | none =>
        simp only [true_iff]
        push_neg
        exact ⟨fun he => hk he.symm, (ih.mp hp)⟩
      | some r =>
        have hkm : k ∈ List.map Prod.fst rest := by
          by_contra hno
          rw [ih.mpr hno] at hp
          exact absurd hp (by simp)
        constructor
        · intro hcon
          exact absurd hcon (by simp)
        · intro hcon
          exact absurd (Or.inr hkm) hcon

theorem popKey_multiset (m : List (ℕ × Bool)) (k : ℕ) (v : Bool)
    (m' : List (ℕ × Bool)) (hp : popKey m k = some (v, m')) :
    (↑m : Multiset (ℕ × Bool)) = (k, v) ::ₘ ↑m' := by
  induction m generalizing m' with
  | nil => simp [popKey] at hp
  | cons e rest ih =>
    obtain ⟨k', v'⟩ := e
    simp only [popKey] at hp
    by_cases hk : k' = k
    · rw [if_pos hk] at hp
      simp only [Option.some_inj] at hp
      obtain ⟨h1, h2⟩ := (Prod.mk.injEq _ _ _ _).mp hp
      rw [← Multiset.cons_coe, hk, h1, h2]
    · rw [if_neg hk] at hp
      cases hrest : popKey rest k with
      | none => rw [hrest] at hp; exact absurd hp (by simp)
      | some r =>
        rw [hrest] at hp
        simp only [Option.some_inj] at hp
        obtain ⟨h1, h2⟩ := (Prod.mk.injEq _ _ _ _).mp hp
        have hr := ih r.2 (by rw [hrest, ← h1])
        rw [← h2, ← Multiset.cons_coe, hr, ← Multiset.cons_coe]
        exact Multiset.cons_swap _ _ _

end CacheSim

open CacheSim in
/-- C9 (counterexample): `is_cached` on a cache holding exactly
`capacity = 0` entries and an uncached key does not return `False` — it
raises (`KeyError` from `popitem(last=False)` on the empty `OrderedDict`),
modelled as `none`. -/
theorem lru_is_cached_capacity0_raises :
    LRU.is_cached ⟨0, []⟩ 5 = none := rfl

open CacheSim in
/-- C9 (amended): for every LRU cache with `capacity ≥ 1` holding exactly
`capacity` entries, `is_cached` is not read-only.  For a key `k` not
cached: it returns `False` and evicts the least-recently-used entry (the
head of the order), leaving `capacity - 1` entries although nothing was
inserted.  For a cached key `k`: it returns `True`, keeps the multiset of
cached keys unchanged, and moves `k` to the most-recently-used (last)
position. -/
theorem lru_is_cached_behavior (l : LRU) (k : ℕ)
    (hlen : l.map.length = l.capacity) (hpos : 0 < l.capacity) :
    (k ∉ l.keys → l.is_cached k = some (false, ⟨l.capacity, l.map.tail⟩)
      ∧ l.map.tail.length + 1 = l.capacity)
    ∧ (k ∈ l.keys → ∃ v m1, popKey l.map k = some (v, m1)
        ∧ l.is_cached k = some (true, ⟨l.capacity, m1 ++ [(k, v)]⟩)
        ∧ (↑((m1 ++ [(k, v)]).map Prod.fst) : Multiset ℕ) = ↑l.keys
        ∧ (m1 ++ [(k, v)]).getLast? = some (k, v)) := by
  constructor
  · intro hk
    have hp : popKey l.map k = none := (popKey_eq_none_iff l.map k).mpr hk
    have hne : l.map ≠ [] := by
      intro he
      rw [he] at hlen
      simp at hlen
      omega
    constructor
    · unfold LRU.is_cached LRU.put
      rw [hp]
      simp only [hlen, if_pos rfl]
      cases hm : l.map with
      | nil => exact absurd hm hne
      | cons e rest =>
        simp [Option.map]
    · cases hm : l.map with
      | nil => exact absurd hm hne
      | cons e rest =>
        rw [hm] at hlen
        simp at hlen ⊢
        omega
  · intro hk
    cases hp : popKey l.map k with
    | none =>
      have hnk := (popKey_eq_none_iff l.map k).mp hp
      exact absurd hk hnk
    | some r =>
      obtain ⟨v, m1⟩ := r
      have hms := popKey_multiset l.map k v m1 hp
      have hcard : l.map.length = m1.length + 1 := by
        have hc := congrArg Multiset.card hms
        simpa using hc
      have hm1len : ¬ m1.length = l.capacity := by omega
      refine ⟨v, m1, rfl, ?_, ?_, List.getLast?_concat _⟩
      · unfold LRU.is_cached LRU.put
        rw [hp]
        simp only [if_neg hm1len]
        rfl
      · unfold LRU.keys
        rw [Multiset.coe_eq_coe]
        have hperm : l.map.Perm ((k, v) :: m1) := Multiset.coe_eq_coe.mp hms
        have h2 := hperm.map Prod.fst
        simp only [List.map_cons] at h2
        have e1 : (m1 ++ [(k, v)]).map Prod.fst = m1.map Prod.fst ++ [k] := by simp
        rw [e1]
        exact (List.perm_append_singleton _ _).trans h2.symm

open CacheSim in
/-- Witness for the amended C9: a full capacity-2 cache probed at an
uncached key (eviction) and at a cached key (refresh to MRU). -/
theorem lru_is_cached_behavior_witness :
    (LRU.is_cached ⟨2, [(1, true), (2, true)]⟩ 5
        = some (false, ⟨2, [(2, true)]⟩))
    ∧ (LRU.is_cached ⟨2, [(1, true), (2, true)]⟩ 1
        = some (true, ⟨2, [(2, true), (1, true)]⟩)) := by
  constructor
  · have h := (lru_is_cached_behavior ⟨2, [(1, true), (2, true)]⟩ 5
      (by decide) (by decide)).1 (by decide)
    exact h.1
  · have h := (lru_is_cached_behavior ⟨2, [(1, true), (2, true)]⟩ 1
      (by decide) (by decide)).2 (by decide)
    obtain ⟨v, m1, hpk, hic, _, _⟩ := h
    have hv : v = true ∧ m1 = [(2, true)] := by
      have : popKey [(1, true), (2, true)] 1 = some (true, [(2, true)]) := by decide
      rw [this] at hpk
      simp only [Option.some_inj] at hpk
      obtain ⟨h1, h2⟩ := (Prod.mk.injEq _ _ _ _).mp hpk
      exact ⟨h1.symm, h2.symm⟩
    rw [hv.1, hv.2] at hic
    exact hic

namespace OmissionSim

open EventQueue

theorem countP_set_some {l : List (Option OmJob)} {i : ℕ} {a : OmJob}
    {old : Option OmJob} (hold : l.get? i = some old) (hsome : old.isSome) :
    (l.set i (some a)).countP Option.isSome = l.countP Option.isSome := by
  induction l generalizing i with
  | nil => simp at hold
  | cons b rest ih =>
    cases i with
    | zero =>
      simp only [List.get?] at hold
      cases hold
      simp [List.countP_cons, hsome]
    | succ m =>
      simp only [List.get?] at hold
      simp [List.countP_cons, ih hold]

theorem countP_set_some_of_none {l : List (Option OmJob)} {i : ℕ} {a : OmJob}
    (hold : l.get? i = some none) :
    (l.set i (some a)).countP Option.isSome = l.countP Option.isSome + 1 := by
  induction l generalizing i with
  | nil => simp at hold
  | cons b rest ih =>
    cases i with
    | zero =>
      simp only [List.get?] at hold
      cases hold
      simp [List.countP_cons]
    | succ m =>
      simp only [List.get?] at hold
      simp only [List.set, List.countP_cons, ih hold]
      omega

theorem countP_set_none_of_some {l : List (Option OmJob)} {i : ℕ}
    {old : OmJob} (hold : l.get? i = some (some old)) :
    (l.set i none).countP Option.isSome + 1 = l.countP Option.isSome := by
  induction l generalizing i with
  | nil => simp at hold
  | cons b rest ih =>
    cases i with
    | zero =>
      simp only [List.get?] at hold
      cases hold
      simp [List.countP_cons]
    | succ m =>
      simp only [List.get?] at hold
      simp only [List.set, List.countP_cons]
      have := ih hold
      omega

theorem findNone_spec : ∀ (l : List (Option OmJob)) (i : ℕ),
    findNone l = some i → l.get? i = some none := by
  intro l
  induction l with
  | nil => intro i h; simp [findNone] at h
  | cons b rest ih =>
    intro i h
    cases b with
    | none =>
      simp only [findNone, Option.some_inj] at h
      rw [← h]
      rfl
    | some job =>
      simp only [findNone, Option.map_eq_some'] at h
      obtain ⟨j, hj, hji⟩ := h
      rw [← hji]
      simpa using ih j hj

theorem findNone_isSome_of_count {l : List (Option OmJob)}
    (h : l.countP Option.isSome < l.length) : (findNone l).isSome := by
  induction l with
  | nil => simp at h
  | cons b rest ih =>
    cases b with
    | none => simp [findNone]
    | some job =>
      simp only [List.countP_cons, List.length_cons] at h
      have hrest : rest.countP Option.isSome < rest.length := by
        simp at h
        omega
      have := ih hrest
      simp only [findNone]
      cases hf : findNone rest with
      | none => rw [hf] at this; simp at this
      | some j => simp

theorem job_done_advance_inv {s : ServerState} {t : ℚ} {n : ℕ} {completed : OmJob}
    (hg : s.jobs.get? n = some (some completed)) (hInv : Inv s) :
    Inv (Server.job_done_advance s t n).1 := by
  cases hq : s.queue with
  | cons next rest =>
    have he : (Server.job_done_advance s t n).1
        = {s with queue := rest, jobs := s.jobs.set n (some next)} := by
      unfold Server.job_done_advance
      rw [hq]
    rw [he]
    constructor
    · show s.busy = ((s.jobs.set n (some next)).countP Option.isSome : ℤ)
      rw [countP_set_some hg (by rfl)]
      exact hInv.1
    · simpa using hInv.2
  | nil =>
    have he : (Server.job_done_advance s t n).1
        = {s with busy := s.busy - 1, jobs := s.jobs.set n none} := by
      unfold Server.job_done_advance
      rw [hq]
    rw [he]
    constructor
    · show s.busy - 1 = ((s.jobs.set n none).countP Option.isSome : ℤ)
      have h2 := countP_set_none_of_some hg
      have h1 := hInv.1
      omega
    · simpa using hInv.2

end OmissionSim

open OmissionSim EventQueue in
/-- C10 (confirmed): the omission-simulator `Server` maintains
`busy = #non-None entries of jobs` with `jobs` of length `mpl`.  The
invariant is preserved by every `offer` call and by every `job_done` call
(for any client `done` callback that itself preserves the invariant — the
repository's clients either leave the server alone or re-enter `offer`);
it forces `0 ≤ busy ≤ mpl`; and whenever `offer` is entered with
`busy < mpl` a free slot exists, so the `assert(False)` branch after the
slot search is unreachable (`offer` returns a value, never that failure). -/
theorem server_busy_slot_invariant
    (cdone : ℚ → OmJob → ServerState → Option (ServerState × Option OmEvent))
    (s : ServerState) (job : OmJob) (t : ℚ) (n : ℕ)
    (hInv : OmissionSim.Inv s)
    (hcd : ∀ t' j s1 s2 r, OmissionSim.Inv s1 → cdone t' j s1 = some (s2, r) → OmissionSim.Inv s2) :
    (∀ s' r, Server.offer s job t = some (s', r) → OmissionSim.Inv s')
    ∧ (∀ s' evs, Server.job_done cdone s t n = some (s', evs) → OmissionSim.Inv s')
    ∧ (0 ≤ s.busy ∧ s.busy ≤ (s.mpl : ℤ))
    ∧ (s.busy < (s.mpl : ℤ) → (Server.offer s job t).isSome) := by
  refine ⟨?_, ?_, ?_, ?_⟩
  · intro s' r hof
    unfold Server.offer at hof
    split at hof
    · cases hf : findNone s.jobs with
      | none => rw [hf] at hof; exact absurd hof (by simp)
      | some i =>
        rw [hf] at hof
        simp only [Option.some_inj] at hof
        obtain ⟨h1, _⟩ := (Prod.mk.injEq _ _ _ _).mp hof
        rw [← h1]
        have hni := findNone_spec s.jobs i hf
        have h2 := @countP_set_some_of_none s.jobs i job hni
        have h3 := hInv.1
        constructor
        · show s.busy + 1 = ((s.jobs.set i (some job)).countP Option.isSome : ℤ)
          omega
        · simpa using hInv.2
    · simp only [Option.some_inj] at hof
      obtain ⟨h1, _⟩ := (Prod.mk.injEq _ _ _ _).mp hof
      rw [← h1]
      exact ⟨hInv.1, hInv.2⟩
  · intro s' evs hjd
    by_cases hb : s.busy > 0
    · cases hg : s.jobs.get? n with
      | none =>
        have hnone : Server.job_done cdone s t n = none := by
          unfold Server.job_done
          rw [if_pos hb, hg]
        rw [hnone] at hjd
        exact absurd hjd (by simp)
      | some o =>
        cases o with
        | none =>
          have hnone : Server.job_done cdone s t n = none := by
            unfold Server.job_done
            rw [if_pos hb, hg]
          rw [hnone] at hjd
          exact absurd hjd (by simp)
        | some completed =>
          have hadv := @job_done_advance_inv s t n completed hg hInv
          cases hcd2 : cdone t completed (Server.job_done_advance s t n).1 with
          | none =>
            have hnone : Server.job_done cdone s t n = none := by
              unfold Server.job_done
              rw [if_pos hb, hg]
              simp only []
              rw [hcd2]
            rw [hnone] at hjd
            exact absurd hjd (by simp)
          | some r2 =>
            obtain ⟨s2, oe⟩ := r2
            have hr2 := hcd t completed _ s2 oe hadv hcd2
            cases oe with
            | none =>
              have heq : Server.job_done cdone s t n
                  = some (s2, (Server.job_done_advance s t n).2) := by
                unfold Server.job_done
                rw [if_pos hb, hg]
                simp only []
                rw [hcd2]
              rw [heq] at hjd
              simp only [Option.some_inj, Prod.mk.injEq] at hjd
              rw [← hjd.1]
              exact hr2
            | some ev =>
              have heq : Server.job_done cdone s t n
                  = some (s2, (Server.job_done_advance s t n).2 ++ [ev]) := by
                unfold Server.job_done
                rw [if_pos hb, hg]
                simp only []
                rw [hcd2]
              rw [heq] at hjd
              simp only [Option.some_inj, Prod.mk.injEq] at hjd
              rw [← hjd.1]
              exact hr2
    · have hnone : Server.job_done cdone s t n = none := by
        unfold Server.job_done
        rw [if_neg hb]
      rw [hnone] at hjd
      exact absurd hjd (by simp)
  · have h1 := hInv.1
    have h2 : s.jobs.countP Option.isSome ≤ s.jobs.length := List.countP_le_length _
    have h3 := hInv.2
    omega
  · intro hb
    unfold Server.offer
    rw [if_pos hb]
    have hc : s.jobs.countP Option.isSome < s.jobs.length := by
      have h1 := hInv.1
      have h3 := hInv.2
      omega
    have hs := findNone_isSome_of_count hc
    cases hf : findNone s.jobs with
    | none => rw [hf] at hs; simp at hs
    | some i => simp

open OmissionSim EventQueue in
/-- Witness for C10 at a concrete server state (one busy slot out of two,
with a client `done` that leaves the server untouched). -/
theorem server_busy_slot_invariant_witness :
    (∀ s' r, Server.offer ⟨1, [], 2, [some ⟨0, 1⟩, none]⟩ ⟨2, 3⟩ 4 = some (s', r)
      → OmissionSim.Inv s')
    ∧ (∀ s' evs, Server.job_done (fun _ _ s1 => some (s1, none))
        ⟨1, [], 2, [some ⟨0, 1⟩, none]⟩ 4 0 = some (s', evs) → OmissionSim.Inv s')
    ∧ (0 ≤ (1 : ℤ) ∧ (1 : ℤ) ≤ ((2 : ℕ) : ℤ))
    ∧ ((1 : ℤ) < ((2 : ℕ) : ℤ)
        → (Server.offer ⟨1, [], 2, [some ⟨0, 1⟩, none]⟩ ⟨2, 3⟩ 4).isSome) :=
  server_busy_slot_invariant (fun _ _ s1 => some (s1, none))
    ⟨1, [], 2, [some ⟨0, 1⟩, none]⟩ ⟨2, 3⟩ 4 0
    (by constructor <;> simp [OmissionSim.Inv])
    (fun t' j s1 s2 r h1 h2 => by
      simp only [Option.some_inj] at h2
      obtain ⟨he1, _⟩ := (Prod.mk.injEq _ _ _ _).mp h2
      rw [← he1]
      exact h1)
